import Mathlib

/-!
Verification of the Logseq-to-HTML exporter (`dnd-logseq-to-html.py`).

Text is modelled as `List Char` (Python `str`).  Each definition in the
`Logseq` namespace is a direct translation of the correspondingly named
Python function; regular-expression substitutions are translated into
explicit left-to-right scanners that reproduce `re.sub` semantics for the
concrete patterns used by the source (all of which are backtracking-free:
their character classes exclude the delimiter that follows them).
-/

namespace Logseq

/-- Python whitespace characters (`str.strip` / `\s`). -/
def isPyWs (c : Char) : Bool :=
  c = ' ' ∨ c = '\t' ∨ c = '\n' ∨ c = '\r' ∨ c = '\x0b' ∨ c = '\x0c'

/-- Python `str.strip()`. -/
def pstrip (s : List Char) : List Char :=
  ((s.dropWhile isPyWs).reverse.dropWhile isPyWs).reverse

/-- Python `s.split('\n')`. -/
def splitLines : List Char → List (List Char)
  | [] => [[]]
  | c :: rest =>
    if c = '\n' then [] :: splitLines rest
    else
      match splitLines rest with
      | l :: ls => (c :: l) :: ls
      | [] => [[c]]

/-- Python `'\n'.join(lines)`. -/
def joinLines : List (List Char) → List Char
  | [] => []
  | [l] => l
  | l :: l1 :: ls => l ++ '\n' :: joinLines (l1 :: ls)

/-- Python `str.replace(pat, repl)` for a nonempty pattern: replace all
non-overlapping occurrences left to right. -/
def pyReplace (pat repl : List Char) : List Char → List Char
  | [] => []
  | c :: rest =>
    if h : pat ≠ [] ∧ pat.isPrefixOf (c :: rest) then
      repl ++ pyReplace pat repl ((c :: rest).drop pat.length)
    else
      c :: pyReplace pat repl rest
termination_by l => l.length
decreasing_by
  · have hlen : 0 < pat.length := List.length_pos.mpr h.1
    simp only [List.length_drop, List.length_cons]
    omega
  · simp

/-- Python `list(dict.fromkeys(xs))`: deduplicate keeping first occurrences. -/
def dedupFirst (seen : List (List Char)) : List (List Char) → List (List Char)
  | [] => []
  | x :: xs => if x ∈ seen then dedupFirst seen xs else x :: dedupFirst (x :: seen) xs

/-- The set of characters kept by `sanitize_filename`'s regex
`[^a-zA-Z0-9\-_]` (everything else becomes an underscore). -/
def isSafeChar (c : Char) : Bool :=
  ('a' ≤ c ∧ c ≤ 'z') ∨ ('A' ≤ c ∧ c ≤ 'Z') ∨ ('0' ≤ c ∧ c ≤ '9') ∨ c = '-' ∨ c = '_'

/-- `sanitize_filename` (lines 120-126): replace `/` with `-`, replace every
character outside `[a-zA-Z0-9\-_]` with `_`, then lowercase.  `str.lower` is
`Char.toLower` pointwise, which agrees with Python on the ASCII characters
that survive the preceding substitution. -/
def sanitize_filename (title : List Char) : List Char :=
  let safe1 := title.map (fun c => if c = '/' then '-' else c)
  let safe2 := safe1.map (fun c => if isSafeChar c then c else '_')
  safe2.map Char.toLower

/-- Characters allowed in a sanitized filename: the set `[a-z0-9\-_]` of the
specification's regular expression. -/
def isOutChar (c : Char) : Bool :=
  ('a' ≤ c ∧ c ≤ 'z') ∨ ('0' ≤ c ∧ c ≤ '9') ∨ c = '-' ∨ c = '_'

/-- One value of the public-page mapping built by `get_public_pages`. -/
structure PageInfo where
  uuid : List Char
  title : List Char
  has_public_children : Bool
deriving DecidableEq

/-- The PublicPageSet: Python dict from title to page info, modelled as an
association list whose keys are pairwise distinct. -/
def PublicPageSet := List (List Char × PageInfo)

/-- Python `page_name in public_pages` (dict key membership). -/
def containsKey (pp : List (List Char × PageInfo)) (name : List Char) : Bool :=
  pp.any (fun e => e.1 = name)

/-- The replacement function `repl` inside `resolve_links_for_html`
(lines 725-731). -/
def linkRepl (pp : List (List Char × PageInfo)) (name : List Char) : List Char :=
  if containsKey pp name then
    "<a href=\"".toList ++ sanitize_filename name ++ ".html\">".toList ++
      name ++ "</a>".toList
  else
    "<span class=\"non-public-link\">".toList ++ name ++ "</span>".toList

/-- `resolve_links_for_html` (lines 723-734): substitute every occurrence of
the pattern `\[\[([^\]]+)\]\]`, scanning left to right exactly as `re.sub`
does (the pattern admits no backtracking because `[^\]]+` excludes the
closing bracket). -/
def resolve_links_for_html (pp : List (List Char × PageInfo)) : List Char → List Char
  | '[' :: '[' :: rest =>
    let name := rest.takeWhile (· ≠ ']')
    let r2 := rest.dropWhile (· ≠ ']')
    if name ≠ [] ∧ [']', ']'].isPrefixOf r2 then
      linkRepl pp name ++ resolve_links_for_html pp (r2.drop 2)
    else
      '[' :: resolve_links_for_html pp ('[' :: rest)
  | c :: rest => c :: resolve_links_for_html pp rest
  | [] => []
termination_by l => l.length
decreasing_by
  · have h1 : (rest.takeWhile (· ≠ ']')).length +
        (rest.dropWhile (· ≠ ']')).length = rest.length := by
      rw [← List.length_append, List.takeWhile_append_dropWhile]
    simp only [List.length_drop, List.length_cons]
    omega
  · simp
  · simp

/-- Python truth value of JSON property values compared by
`public_prop in [True, "true", "children"]`. -/
inductive PubVal where
  | pTrue : PubVal
  | pFalse : PubVal
  | pStr : List Char → PubVal
deriving DecidableEq

/-- One page record as returned by the Logseq API: the fields the exporter
reads (`name`, `title`, `uuid`, and the `public` property; a missing
`properties` dict is subsumed by `public = none`). -/
structure PageRec where
  name : Option (List Char)
  title : Option (List Char)
  uuid : Option (List Char)
  public : Option PubVal
deriving DecidableEq

/-- `(page.get("name") or page.get("title", "")).strip()` — `or` falls
through on a missing or empty name. -/
def getName (p : PageRec) : List Char :=
  pstrip (match p.name with
          | some n => if n ≠ [] then n else p.title.getD []
          | none => p.title.getD [])

/-- `is_page_public` (lines 59-63). -/
def is_page_public (p : PageRec) : Bool :=
  p.public = some PubVal.pTrue ∨ p.public = some (PubVal.pStr "true".toList) ∨
    p.public = some (PubVal.pStr "children".toList)

/-- `is_public_children` (lines 65-68). -/
def is_public_children (p : PageRec) : Bool :=
  p.public = some (PubVal.pStr "children".toList)

/-- `get_nested_pages` (lines 70-82); the API call `getAllPages` is modelled
by the `pages` argument (an empty reply returns `[]`). -/
def get_nested_pages (pages : List PageRec) (page_name : List Char) : List PageRec :=
  if pages = [] then []
  else pages.filter (fun q => (pstrip page_name ++ ['/']).isPrefixOf (getName q))

/-- The mutable state of `get_public_pages`: the `public_pages` dict and the
`processed_pages` set. -/
structure GPState where
  pubs : List (List Char × PageInfo)
  processed : List (List Char)

/-- `add_page` (lines 93-104): only records with a truthy `uuid` and a
truthy, not-yet-processed title are inserted.  (The `if not page` guard is
unreachable in this model since list elements are never `None`.) -/
def add_page (p : PageRec) (st : GPState) : GPState :=
  if p.uuid.getD [] ≠ [] ∧ getName p ≠ [] ∧ getName p ∉ st.processed then
    { pubs := st.pubs ++
        [(getName p, ⟨p.uuid.getD [], getName p, is_public_children p⟩)],
      processed := getName p :: st.processed }
  else st

/-- The body of the first-pass loop of `get_public_pages` (lines 107-116). -/
def gpStep (pages : List PageRec) (st : GPState) (p : PageRec) : GPState :=
  if is_page_public p then
    let st1 := add_page p st
    if is_public_children p then
      (get_nested_pages pages (getName p)).foldl (fun s q => add_page q s) st1
    else st1
  else st

/-- `get_public_pages` (lines 84-118); both API calls (the outer one and the
one inside `get_nested_pages`) are modelled by the same `pages` list. -/
def get_public_pages (pages : List PageRec) : List (List Char × PageInfo) :=
  if pages = [] then []
  else (pages.foldl (gpStep pages) ⟨[], []⟩).pubs

/-- Invariant of `get_public_pages`: `processed_pages` holds exactly the keys
of `public_pages`, and those keys are pairwise distinct. -/
def GPInv (st : GPState) : Prop :=
  (∀ t, t ∈ st.processed ↔ t ∈ st.pubs.map Prod.fst) ∧ (st.pubs.map Prod.fst).Nodup

/-- Python `str.lower()`, pointwise `Char.toLower`; it agrees with Python on
ASCII filenames (non-ASCII case mapping is not modelled). -/
def lowerStr (s : List Char) : List Char :=
  s.map Char.toLower

/-- `os.path.basename`: the part after the last `/`. -/
def baseName (p : List Char) : List Char :=
  (p.reverse.takeWhile (· ≠ '/')).reverse

/-- `os.path.splitext` for slash-free names (every call site passes a
basename): split at the last dot provided some earlier character of the name
is not a dot. -/
def splitExt (p : List Char) : List Char × List Char :=
  let extR := p.reverse.takeWhile (· ≠ '.')
  match p.reverse.dropWhile (· ≠ '.') with
  | [] => (p, [])
  | _ :: baseR =>
    if baseR.reverse.any (· ≠ '.') then (baseR.reverse, '.' :: extR.reverse)
    else (p, [])

/-- `os.path.join location file` for a location without a trailing slash and
a relative file component. -/
def pathJoin (loc file : List Char) : List Char :=
  loc ++ '/' :: file

/-- A candidate asset directory: its path together with its listing
(`os.listdir`); a file exists in it exactly when it occurs in the listing. -/
def AssetDir := List Char × List (List Char)

/-- The filename spelling variations tried by `find_asset` (lines 483-491),
deduplicated preserving first-seen order. -/
def variations (filename : List Char) : List (List Char) :=
  dedupFirst []
    [filename,
     pyReplace "_-_".toList "-".toList filename,
     pyReplace "-".toList "_".toList filename,
     pyReplace "_".toList "-".toList filename]

/-- The extension-less basename variations used by the substring fallback of
`find_asset` (lines 510-517). -/
def baseVariations (filename : List Char) : List (List Char) :=
  dedupFirst []
    [(splitExt (baseName filename)).1,
     pyReplace "_-_".toList "-".toList (splitExt (baseName filename)).1,
     pyReplace "-".toList "_".toList (splitExt (baseName filename)).1,
     pyReplace "_".toList "-".toList (splitExt (baseName filename)).1]

/-- Python substring containment `needle in hay`. -/
def substrOf (needle : List Char) : List Char → Bool
  | [] => needle.isEmpty
  | c :: t => needle.isPrefixOf (c :: t) || substrOf needle t

/-- The per-directory search of `find_asset` (lines 497-525): first the
exact spelling variants in order, then the case-insensitive substring
fallback over the directory listing. -/
def searchLocation (filename : List Char) (d : List Char × List (List Char)) :
    Option (List Char) :=
  match (variations filename).findSome?
      (fun v => if d.2.contains v then some (pathJoin d.1 v) else none) with
  | some p => some p
  | none =>
    d.2.findSome? (fun file =>
      if (baseVariations filename).any
          (fun bv => substrOf (lowerStr bv) (lowerStr file)) then
        some (pathJoin d.1 file)
      else none)

/-- `find_asset` (lines 469-528): try each existing candidate directory in
order; `fs` models the candidate directories that exist (after
`expanduser`), in their listed order, together with their listings. -/
def find_asset (fs : List (List Char × List (List Char))) (filename : List Char) :
    Option (List Char) :=
  fs.findSome? (searchLocation filename)

/-- The character class `[a-f0-9-]` of the block-identifier patterns. -/
def isHexDash (c : Char) : Bool :=
  ('a' ≤ c ∧ c ≤ 'f') ∨ ('0' ≤ c ∧ c ≤ '9') ∨ c = '-'

/-- The character class `[a-f0-9]` of the UUID pattern. -/
def isHexChar (c : Char) : Bool :=
  ('a' ≤ c ∧ c ≤ 'f') ∨ ('0' ≤ c ∧ c ≤ '9')

/-- Generic `re.sub(pattern, '', text)` scanner: at each position the
matcher reports the total length of a match starting there (always at least
one character for the patterns used here), which is deleted; otherwise the
character is kept and scanning advances. -/
def scrub (m : List Char → Option Nat) : List Char → List Char
  | [] => []
  | c :: rest =>
    match m (c :: rest) with
    | some k => scrub m (rest.drop (k - 1))
    | none => c :: scrub m rest
termination_by l => l.length
decreasing_by
  · simp only [List.length_drop, List.length_cons]
    omega
  · simp

/-- Matcher for `\s*id::\s*[a-f0-9-]+` (line 764): returns the length of the
match at the head of the input, if any.  Both `\s*` runs and the `[a-f0-9-]+`
run are maximal, as in the regex (no backtracking is possible: a shortened
run would have to be followed by a character of the very class it
excludes). -/
def idMatch (s : List Char) : Option Nat :=
  let ws := s.takeWhile isPyWs
  let r1 := s.dropWhile isPyWs
  if "id::".toList.isPrefixOf r1 then
    let r2 := r1.drop 4
    let ws2 := r2.takeWhile isPyWs
    let r3 := r2.dropWhile isPyWs
    let hex := r3.takeWhile isHexDash
    if hex ≠ [] then some (ws.length + 4 + ws2.length + hex.length) else none
  else none

/-- Exactly `n` characters of class `[a-f0-9]`; returns the remainder. -/
def hexRun : Nat → List Char → Option (List Char)
  | 0, s => some s
  | _ + 1, [] => none
  | n + 1, c :: rest => if isHexChar c then hexRun n rest else none

/-- The 8-4-4-4-12 hex shape of the UUID pattern (line 766). -/
def matchUuidCore (s : List Char) : Bool :=
  match hexRun 8 s with
  | some ('-' :: s1) =>
    match hexRun 4 s1 with
    | some ('-' :: s2) =>
      match hexRun 4 s2 with
      | some ('-' :: s3) =>
        match hexRun 4 s3 with
        | some ('-' :: s4) => (hexRun 12 s4).isSome
        | _ => false
      | _ => false
    | _ => false
  | _ => false

/-- Matcher for `\s*[a-f0-9]{8}-[a-f0-9]{4}-[a-f0-9]{4}-[a-f0-9]{4}-[a-f0-9]{12}`
(line 766): a maximal whitespace run followed by the 36-character UUID. -/
def uuidMatch (s : List Char) : Option Nat :=
  let ws := s.takeWhile isPyWs
  let r1 := s.dropWhile isPyWs
  if matchUuidCore r1 then some (ws.length + 36) else none

/-- Matcher for `\s*public::\s*(true|children)` (line 768); the alternation
tries `true` first, exactly as the regex does. -/
def publicMatch (s : List Char) : Option Nat :=
  let ws := s.takeWhile isPyWs
  let r1 := s.dropWhile isPyWs
  if "public::".toList.isPrefixOf r1 then
    let r2 := r1.drop 8
    let ws2 := r2.takeWhile isPyWs
    let r3 := r2.dropWhile isPyWs
    if "true".toList.isPrefixOf r3 then some (ws.length + 8 + ws2.length + 4)
    else if "children".toList.isPrefixOf r3 then some (ws.length + 8 + ws2.length + 8)
    else none
  else none

/-- `clean_logseq_metadata` (lines 761-769): remove block ids, bare UUIDs and
the public property, in that order. -/
def clean_logseq_metadata (content : List Char) : List Char :=
  scrub publicMatch (scrub uuidMatch (scrub idMatch content))

/-- One anchored substitution `re.sub(r'^PAT', repl, text)` without
MULTILINE: rewrite the pattern only at the very start of the text. -/
def taskStep (pat repl l : List Char) : List Char :=
  if pat.isPrefixOf l then repl ++ l.drop pat.length else l

/-- The five sequential task-marker substitutions of `preprocess_markdown`
(lines 616-620), restricted to one line.  Each `re.sub(r'^P ', repl, ...,
flags=re.MULTILINE)` rewrites at every line start; pattern and replacement
contain no newline, so the five substitutions act on each line separately
and sequentially. -/
def taskRewriteLine (l : List Char) : List Char :=
  taskStep "LATER ".toList "- [ ] ".toList
    (taskStep "NOW ".toList "- [ ] ".toList
      (taskStep "TODO ".toList "- [ ] ".toList
        (taskStep "DOING ".toList "- [ ] ".toList
          (taskStep "DONE ".toList "- [x] ".toList l))))

/-- The task-marker step of `preprocess_markdown` (lines 616-620). -/
def fix_task_markers (content : List Char) : List Char :=
  joinLines ((splitLines content).map taskRewriteLine)

/-- The five sequential task-marker substitutions of `process_block`
(lines 321-325).  Without `re.MULTILINE` the anchor `^` matches only at the
start of the whole string, so only a prefix of the entire content is
rewritten; the replacements are the emoji glyphs of the source
(`U+2611 U+FE0F`, `U+23F3`, `U+2610`, `U+25B6 U+FE0F`, `U+23F0`, each
followed by a space). -/
def emojiTaskMarkers (content : List Char) : List Char :=
  taskStep "LATER ".toList [Char.ofNat 0x23F0, ' ']
    (taskStep "NOW ".toList [Char.ofNat 0x25B6, Char.ofNat 0xFE0F, ' ']
      (taskStep "TODO ".toList [Char.ofNat 0x2610, ' ']
        (taskStep "DOING ".toList [Char.ofNat 0x23F3, ' ']
          (taskStep "DONE ".toList [Char.ofNat 0x2611, Char.ofNat 0xFE0F, ' '] content))))

/-- Does a line start with one of the five task-state prefixes? -/
def startsTaskPrefix (l : List Char) : Bool :=
  "DONE ".toList.isPrefixOf l ∨ "DOING ".toList.isPrefixOf l ∨
    "TODO ".toList.isPrefixOf l ∨ "NOW ".toList.isPrefixOf l ∨
    "LATER ".toList.isPrefixOf l

/-- The tag-link substitution `#\[\[([^\]]+)\]\]` → `[\1](\1)` of
`preprocess_markdown` (line 612). -/
def tagSub : List Char → List Char
  | '#' :: '[' :: '[' :: rest =>
    let name := rest.takeWhile (· ≠ ']')
    let r2 := rest.dropWhile (· ≠ ']')
    if name ≠ [] ∧ [']', ']'].isPrefixOf r2 then
      ('[' :: name) ++ (']' :: '(' :: name) ++ (')' :: tagSub (r2.drop 2))
    else
      '#' :: tagSub ('[' :: '[' :: rest)
  | c :: rest => c :: tagSub rest
  | [] => []
termination_by l => l.length
decreasing_by
  · have h1 : (rest.takeWhile (· ≠ ']')).length +
        (rest.dropWhile (· ≠ ']')).length = rest.length := by
      rw [← List.length_append, List.takeWhile_append_dropWhile]
    simp only [List.length_drop, List.length_cons]
    omega
  · simp
  · simp

/-- The block-reference removal `\(\(([a-f0-9-]+)\)\)` → `` (empty) of
`preprocess_markdown` (line 613). -/
def blockRefSub : List Char → List Char
  | '(' :: '(' :: rest =>
    let hex := rest.takeWhile isHexDash
    let r2 := rest.dropWhile isHexDash
    if hex ≠ [] ∧ [')', ')'].isPrefixOf r2 then
      blockRefSub (r2.drop 2)
    else
      '(' :: blockRefSub ('(' :: rest)
  | c :: rest => c :: blockRefSub rest
  | [] => []
termination_by l => l.length
decreasing_by
  · have h1 : (rest.takeWhile isHexDash).length +
        (rest.dropWhile isHexDash).length = rest.length := by
      rw [← List.length_append, List.takeWhile_append_dropWhile]
    simp only [List.length_drop, List.length_cons]
    omega
  · simp
  · simp

/-- ASCII letters, the first-character class `[a-zA-Z]` of the property
pattern. -/
def isAsciiAlpha (c : Char) : Bool :=
  ('a' ≤ c ∧ c ≤ 'z') ∨ ('A' ≤ c ∧ c ≤ 'Z')

/-- `re.match(r'^([a-zA-Z][a-zA-Z0-9-_]*)::(.+?)$', line)` on a newline-free
line (line 777): the greedy key run is maximal (its class excludes `:`), the
lazy value extends to the end of the line and must be nonempty.  The key
continuation class `[a-zA-Z0-9-_]` is `isSafeChar`. -/
def parseProp (l : List Char) : Option (List Char × List Char) :=
  match l with
  | [] => none
  | c :: rest =>
    if isAsciiAlpha c then
      match rest.dropWhile isSafeChar with
      | ':' :: ':' :: v =>
        if v ≠ [] then some (c :: rest.takeWhile isSafeChar, v) else none
      | _ => none
    else none

/-- Is a line a property line (matched by the property pattern after
stripping)?  Reserved-key lines also count: the source `continue`s on any
match. -/
def isPropLine (l : List Char) : Bool :=
  (parseProp (pstrip l)).isSome

/-- One key/value `<div>` group of the property section (lines 803-807).
The Python `hash(...) & 0xFFFFFFFF` is modelled by an arbitrary hash
function `h` (Python's string hash is process-seeded) reduced mod `2^32`. -/
def renderPair (h : List Char → Nat) (kv : List Char × List Char) : List Char :=
  let key_id := "prop-".toList ++ (Nat.repr (h kv.1 % 4294967296)).toList
  "    <div class=\"property-pair\" role=\"listitem\">\n".toList ++
  "    <dt id=\"".toList ++ key_id ++ "\">".toList ++ kv.1 ++ "</dt>\n".toList ++
  "    <dd aria-labelledby=\"".toList ++ key_id ++ "\">".toList ++ kv.2 ++
    "</dd>\n".toList ++
  "    </div>\n".toList

/-- The grouped property section flushed for one run of property lines
(lines 797-809 and 821-833). -/
def renderProps (h : List Char → Nat) (props : List (List Char × List Char)) :
    List Char :=
  let section_id := "props-".toList ++
    (Nat.repr (h ((props.map (fun kv => kv.1 ++ kv.2)).flatten) % 4294967296)).toList
  "<section id=\"".toList ++ section_id ++
    "\" class=\"page-properties\" aria-label=\"Page properties\">\n".toList ++
  "<h2 class=\"visually-hidden\">Page Properties</h2>\n".toList ++
  "<dl role=\"list\">\n".toList ++
  (props.map (renderPair h)).flatten ++
  "</dl>\n".toList ++
  "</section>\n".toList

/-- Wrapping of a non-tag line in a paragraph (line 816). -/
def wrapP (l : List Char) : List Char :=
  "<p>".toList ++ l ++ "</p>".toList

/-- The line loop of `format_properties` (lines 782-833): `lines` is the
output accumulator, `props` the pending `property_lines` run. -/
def fpGo (h : List Char → Nat) :
    List (List Char) → List (List Char) → List (List Char × List Char) →
      List (List Char)
  | [], lines, props =>
    if props ≠ [] then lines ++ [renderProps h props] else lines
  | l :: ls, lines, props =>
    match parseProp (pstrip l) with
    | some (k, v) =>
      if k = "id".toList ∨ k = "public".toList then fpGo h ls lines props
      else fpGo h ls lines (props ++ [(pstrip k, pstrip v)])
    | none =>
      let lines1 := if props ≠ [] then lines ++ [renderProps h props] else lines
      let lines2 :=
        if pstrip l ≠ [] then
          lines1 ++ [if (pstrip l).head? = some '<' then l else wrapP l]
        else lines1
      fpGo h ls lines2 []

/-- `format_properties` (lines 771-835). -/
def format_properties (h : List Char → Nat) (content : List Char) : List Char :=
  joinLines (fpGo h (splitLines content) [] [])

/-- `preprocess_markdown` (lines 604-628): tag links, block-reference
removal, task markers, property formatting, then metadata cleanup. -/
def preprocess_markdown (h : List Char → Nat) (content : List Char) : List Char :=
  if content = [] then []
  else
    clean_logseq_metadata
      (format_properties h (fix_task_markers (blockRefSub (tagSub content))))

/-- The pairs captured from a run of property lines, reserved keys
excluded. -/
def capturedPairs (run : List (List Char)) : List (List Char × List Char) :=
  run.filterMap (fun l =>
    match parseProp (pstrip l) with
    | some (k, v) =>
      if k = "id".toList ∨ k = "public".toList then none
      else some (pstrip k, pstrip v)
    | none => none)

/-- The rendering of one non-property line: empty lines vanish, tag-like
lines pass through, other lines become paragraphs. -/
def renderLine (l : List Char) : List (List Char) :=
  if pstrip l ≠ [] then
    [if (pstrip l).head? = some '<' then l else wrapP l]
  else []

/-- Specification-side reformulation of the property formatter, from the
spec's words: each maximal contiguous run of property lines, terminated by a
non-property line or the end of the text, is flushed as exactly one grouped
block (none when all its keys are reserved), and other lines are rendered
individually. -/
def specFormatLines (h : List Char → Nat) : List (List Char) → List (List Char)
  | [] => []
  | l :: ls =>
    if isPropLine l then
      (if capturedPairs (l :: ls.takeWhile isPropLine) = [] then []
       else [renderProps h (capturedPairs (l :: ls.takeWhile isPropLine))]) ++
        specFormatLines h (ls.dropWhile isPropLine)
    else renderLine l ++ specFormatLines h ls
termination_by l0 => l0.length
decreasing_by
  · have h1 : ∀ (xs : List (List Char)),
        (xs.dropWhile isPropLine).length ≤ xs.length := by
      intro xs
      conv_rhs => rw [← List.takeWhile_append_dropWhile (p := isPropLine) (l := xs)]
      rw [List.length_append]
      omega
    simp only [List.length_cons]
    exact Nat.lt_succ_of_le (h1 _)
  · simp

/-- An ASCII hexadecimal digit (both cases), as accepted by `unquote`. -/
def isHexDigitAscii (c : Char) : Bool :=
  ('0' ≤ c ∧ c ≤ '9') ∨ ('a' ≤ c ∧ c ≤ 'f') ∨ ('A' ≤ c ∧ c ≤ 'F')

/-- Value of an ASCII hexadecimal digit. -/
def hexDigitVal (c : Char) : Nat :=
  if '0' ≤ c ∧ c ≤ '9' then c.toNat - 48
  else if 'a' ≤ c ∧ c ≤ 'f' then c.toNat - 87
  else c.toNat - 55

/-- Models `urllib.parse.unquote` on ASCII percent-escapes: `%XX` with a hex
value below 128 decodes to that character; other escapes are left unchanged
(the source would additionally decode multi-byte UTF-8 escape runs, which no
claim exercises). -/
def unquote : List Char → List Char
  | '%' :: h1 :: h2 :: rest =>
    if isHexDigitAscii h1 ∧ isHexDigitAscii h2 ∧
        hexDigitVal h1 * 16 + hexDigitVal h2 < 128 then
      Char.ofNat (hexDigitVal h1 * 16 + hexDigitVal h2) :: unquote rest
    else '%' :: unquote (h1 :: h2 :: rest)
  | c :: rest => c :: unquote rest
  | [] => []

/-- Matcher for `\.\./+` (line 538): two dots followed by a maximal run of at
least one slash. -/
def dotdotMatch (s : List Char) : Option Nat :=
  match s with
  | '.' :: '.' :: '/' :: rest => some (3 + (rest.takeWhile (· = '/')).length)
  | _ => none

/-- `re.sub(r'\.\./+', '', img_path)` (line 538). -/
def stripDotDots (p : List Char) : List Char :=
  scrub dotdotMatch p

/-- `re.sub(r'^(assets/|img/)', '', img_path)` (line 539): anchored, so at
most one leading prefix is removed; the alternation tries `assets/` first. -/
def stripAssetsDir (p : List Char) : List Char :=
  if "assets/".toList.isPrefixOf p then p.drop 7
  else if "img/".toList.isPrefixOf p then p.drop 4
  else p

/-- The path cleanup applied to an image reference before `find_asset`
(lines 535-539). -/
def cleanImgPath (p : List Char) : List Char :=
  stripAssetsDir (stripDotDots (unquote p))

/-- `os.path.exists` inside `copy_asset`, over the directory model: a path
exists when it is the join of a modelled directory and one of its files. -/
def fsHasPath (fs : List (List Char × List (List Char))) (p : List Char) : Bool :=
  fs.any (fun d => d.2.any (fun f => pathJoin d.1 f = p))

/-- The character class kept by `copy_asset`'s filename sanitisation
`[^a-zA-Z0-9._-]` (line 437). -/
def isCopySafe (c : Char) : Bool :=
  ('a' ≤ c ∧ c ≤ 'z') ∨ ('A' ≤ c ∧ c ≤ 'Z') ∨ ('0' ≤ c ∧ c ≤ '9') ∨
    c = '.' ∨ c = '_' ∨ c = '-'

/-- `copy_asset` (lines 427-467): returns the new relative path, or `None`
for a nonexistent source.  Image optimisation runs through the external PIL
library; its success on a given source file is modelled by the oracle
`optOk` (covering both an exception and a `None` result of
`optimize_image`, which fall back to the byte copy). -/
def copy_asset (fs : List (List Char × List (List Char)))
    (optOk : List Char → Bool) (src : List Char) : Option (List Char) :=
  if fsHasPath fs src then
    let filename := baseName src
    let safe := filename.map (fun c => if isCopySafe c then c else '_')
    let ext := lowerStr (splitExt filename).2
    if (ext = ".jpg".toList ∨ ext = ".jpeg".toList ∨ ext = ".png".toList ∨
        ext = ".webp".toList) ∧ optOk src then
      some ("assets/".toList ++ (splitExt safe).1 ++ ".jpg".toList)
    else
      some ("assets/".toList ++ safe)
  else none

/-- The replacement closure `repl` of `process_image_links` (lines 534-548):
clean the path, resolve it, copy it, and emit an `<img>` tag, or the
`[Image not found: ...]` placeholder on failure. -/
def imgRepl (fs : List (List Char × List (List Char)))
    (optOk : List Char → Bool) (pth : List Char) : List Char :=
  let img_path := cleanImgPath pth
  match find_asset fs img_path with
  | some asset_path =>
    match copy_asset fs optOk asset_path with
    | some new_path =>
      "<img src=\"".toList ++ new_path ++ "\" alt=\"\"/>".toList
    | none => "[Image not found: ".toList ++ img_path ++ "]".toList
  | none => "[Image not found: ".toList ++ img_path ++ "]".toList

/-- Substitution of the Markdown image pattern `!\[(?:[^\]]*)\]\(([^)]+)\)`
(line 551): both bracketed parts are runs over classes that exclude their
closing delimiter, so the regex admits no backtracking. -/
def mdImgSub (repl : List Char → List Char) : List Char → List Char
  | '!' :: '[' :: rest =>
    (match hd : rest.dropWhile (· ≠ ']') with
    | ']' :: '(' :: r3 =>
      let pth := r3.takeWhile (· ≠ ')')
      let r4 := r3.dropWhile (· ≠ ')')
      if pth ≠ [] ∧ r4 ≠ [] then
        repl pth ++ mdImgSub repl (r4.drop 1)
      else '!' :: mdImgSub repl ('[' :: rest)
    | _ => '!' :: mdImgSub repl ('[' :: rest))
  | c :: rest => c :: mdImgSub repl rest
  | [] => []
termination_by l => l.length
decreasing_by
  · have h1 : ∀ (xs : List Char) (p : Char → Bool),
        (xs.dropWhile p).length ≤ xs.length := by
      intro xs p
      conv_rhs => rw [← List.takeWhile_append_dropWhile (p := p) (l := xs)]
      rw [List.length_append]
      omega
    have h2 := congrArg List.length hd
    simp only [List.length_cons] at h2
    have h3 := h1 rest (· ≠ ']')
    have h4 := h1 r3 (· ≠ ')')
    simp only [List.length_drop, List.length_cons]
    omega
  · simp
  · simp
  · simp

/-- The literal `src="` of the HTML image pattern. -/
def srcQuote : List Char := "src=\"".toList

/-- One backtracking attempt of the HTML image pattern at offset `k` after
`<img`: parse `src="`, then a nonempty maximal `[^"]+` group, `"`, a maximal
`[^>]*` run and the closing `>`.  Returns the captured group and the number
of characters consumed after `<img`. -/
def htmlImgTry (t : List Char) (k : Nat) : Option (List Char × Nat) :=
  let u := t.drop (k + 5)
  let y := u.takeWhile (· ≠ '"')
  match u.dropWhile (· ≠ '"') with
  | '"' :: v =>
    if y ≠ [] then
      let z := v.takeWhile (· ≠ '>')
      match v.dropWhile (· ≠ '>') with
      | '>' :: _ => some (y, k + 5 + y.length + 1 + z.length + 1)
      | _ => none
    else none
  | _ => none

/-- The HTML image pattern `<img[^>]+src="([^"]+)"[^>]*>` (line 552) after a
literal `<img`: the greedy `[^>]+` with backtracking selects the latest
`src="` occurrence inside the maximal `[^>]` run (at offset at least 1) for
which the rest of the pattern succeeds. -/
def htmlImgMatch (t : List Char) : Option (List Char × Nat) :=
  let R := t.takeWhile (· ≠ '>')
  (((List.range (R.length + 1)).filter
      (fun k => 1 ≤ k ∧ srcQuote.isPrefixOf (R.drop k))).reverse).findSome?
    (htmlImgTry t)

/-- Substitution of the HTML image pattern (line 552). -/
def htmlImgSub (repl : List Char → List Char) : List Char → List Char
  | '<' :: 'i' :: 'm' :: 'g' :: rest =>
    (match htmlImgMatch rest with
    | some (y, consumed) => repl y ++ htmlImgSub repl (rest.drop consumed)
    | none => '<' :: htmlImgSub repl ('i' :: 'm' :: 'g' :: rest))
  | c :: rest => c :: htmlImgSub repl rest
  | [] => []
termination_by l => l.length
decreasing_by
  · simp only [List.length_drop, List.length_cons]
    omega
  · simp
  · simp

/-- `process_image_links` (lines 530-556): the Markdown pattern pass
followed by the HTML pattern pass, both with the same replacement. -/
def process_image_links (fs : List (List Char × List (List Char)))
    (optOk : List Char → Bool) (content : List Char) : List Char :=
  htmlImgSub (imgRepl fs optOk) (mdImgSub (imgRepl fs optOk) content)

/-- The lazy group of `OPEN(.+?)CLOSE` patterns: the shortest nonempty
newline-free run after which `close` matches; returns the run. -/
def findClose (close : List Char) : List Char → Option (List Char)
  | [] => none
  | c :: rest =>
    if c = '\n' then none
    else if close.isPrefixOf rest then some [c]
    else
      match findClose close rest with
      | some content => some (c :: content)
      | none => none

/-- Substitution of an inline-span pattern `OPEN(.+?)CLOSE` →
`pre\1post`, as used for bold, italic, strikethrough and highlight in
`process_block` (lines 335-338): leftmost match, shortest nonempty lazy
group, continue after the replacement. -/
def subPair (od cl pre post : List Char) : List Char → List Char
  | [] => []
  | c :: rest =>
    if od.isPrefixOf (c :: rest) then
      match findClose cl ((c :: rest).drop od.length) with
      | some content =>
        pre ++ content ++ post ++
          subPair od cl pre post
            (rest.drop (od.length + content.length + cl.length - 1))
      | none => c :: subPair od cl pre post rest
    else c :: subPair od cl pre post rest
termination_by l => l.length
decreasing_by
  · simp only [List.length_drop, List.length_cons]
    omega
  · simp
  · simp

/-- Substitution of the inline-code pattern `` `([^`]+)` `` →
`<code>\1</code>` (line 347): the greedy group is a maximal nonempty
backtick-free run followed by the closing backtick. -/
def subCode : List Char → List Char
  | '`' :: rest =>
    (let code := rest.takeWhile (· ≠ '`')
    if code ≠ [] ∧ (rest.dropWhile (· ≠ '`')) ≠ [] then
      "<code>".toList ++ code ++ "</code>".toList ++
        subCode (rest.drop (code.length + 1))
    else '`' :: subCode rest)
  | c :: rest => c :: subCode rest
  | [] => []
termination_by l => l.length
decreasing_by
  · simp only [List.length_drop, List.length_cons]
    omega
  · simp
  · simp

/-- Substitution of the bare-URL pattern `(https?://\S+)` →
`<a href="\1">\1</a>` (line 344): optional `s` tried greedily, then a
maximal nonempty run of non-whitespace characters. -/
def subUrls : List Char → List Char
  | [] => []
  | c :: rest =>
    if "https://".toList.isPrefixOf (c :: rest) then
      (let w := ((c :: rest).drop 8).takeWhile (fun ch => ¬ isPyWs ch)
      if w ≠ [] then
        "<a href=\"".toList ++ ("https://".toList ++ w) ++ "\">".toList ++
          ("https://".toList ++ w) ++ "</a>".toList ++
          subUrls (rest.drop (7 + w.length))
      else c :: subUrls rest)
    else if "http://".toList.isPrefixOf (c :: rest) then
      (let w := ((c :: rest).drop 7).takeWhile (fun ch => ¬ isPyWs ch)
      if w ≠ [] then
        "<a href=\"".toList ++ ("http://".toList ++ w) ++ "\">".toList ++
          ("http://".toList ++ w) ++ "</a>".toList ++
          subUrls (rest.drop (6 + w.length))
      else c :: subUrls rest)
    else c :: subUrls rest
termination_by l => l.length
decreasing_by
  · simp only [List.length_drop, List.length_cons]
    omega
  · simp
  · simp only [List.length_drop, List.length_cons]
    omega
  · simp
  · simp

/-- A block tree: `content` string and ordered children, as consumed by the
two rendering paths (a JSON block record; absent `children` is `[]`). -/
inductive Block where
  | mk : List Char → List Block → Block

/-- The content of a block. -/
def Block.content : Block → List Char
  | Block.mk c _ => c

/-- The children of a block. -/
def Block.children : Block → List Block
  | Block.mk _ ch => ch

/-- The apostrophe character, used by `process_block`'s
`<div class='block'>` wrapper. -/
def sq : Char := Char.ofNat 39

/-- The per-line pipeline of `process_block` (lines 334-350): bold, italic,
strikethrough, highlight, link resolution, bare URLs, inline code, image
links. -/
def processLine (fs : List (List Char × List (List Char)))
    (optOk : List Char → Bool) (pp : List (List Char × PageInfo))
    (l : List Char) : List Char :=
  process_image_links fs optOk
    (subCode
      (subUrls
        (resolve_links_for_html pp
          (subPair "==".toList "==".toList "<mark>".toList "</mark>".toList
            (subPair "~~".toList "~~".toList "<del>".toList "</del>".toList
              (subPair "*".toList "*".toList "<em>".toList "</em>".toList
                (subPair "**".toList "**".toList "<strong>".toList "</strong>".toList
                  l)))))))

mutual

/-- `process_block` (lines 309-366), the block-by-block rendering path: an
empty or whitespace-only content returns the empty string regardless of
children; otherwise metadata is cleaned, emoji task markers applied, each
nonempty stripped line run through the inline pipeline and wrapped in a
paragraph, and children nested as `<ul><li>…</li></ul>`.  (The `if not
block` guard cannot fire in this model, where block records are never
`None`.) -/
def process_block (fs : List (List Char × List (List Char)))
    (optOk : List Char → Bool) (pp : List (List Char × PageInfo)) :
    Block → List Char
  | Block.mk content children =>
    let c0 := pstrip content
    if c0 = [] then []
    else
      let c2 := emojiTaskMarkers (clean_logseq_metadata c0)
      let body := joinLines
        ((((splitLines c2).map pstrip).filter (· ≠ [])).map
          (fun l => "<p>".toList ++ processLine fs optOk pp l ++ "</p>".toList))
      ("<div class=".toList ++ [sq] ++ "block".toList ++ [sq] ++ ">".toList) ++
        body ++
        (if children.isEmpty then []
         else
          "<ul>".toList ++ process_block_list fs optOk pp children ++
            "</ul>".toList) ++
        "</div>".toList

/-- The children loop of `process_block` (lines 358-363). -/
def process_block_list (fs : List (List Char × List (List Char)))
    (optOk : List Char → Bool) (pp : List (List Char × PageInfo)) :
    List Block → List Char
  | [] => []
  | b :: bs =>
    "<li>".toList ++ process_block fs optOk pp b ++ "</li>".toList ++
      process_block_list fs optOk pp bs

end

mutual

/-- `block_tree_to_html` (lines 630-667), the markdown-compiler rendering
path: a block with empty content and no children renders to nothing;
otherwise the content is preprocessed, link- and image-resolved, fed to the
external markdown compiler `md` when nonempty, and the children joined with
newlines are nested in `<ul>…</ul>`; non-root blocks are wrapped in
`<li>`. -/
def block_tree_to_html (fs : List (List Char × List (List Char)))
    (optOk : List Char → Bool) (pp : List (List Char × PageInfo))
    (h : List Char → Nat) (md : List Char → List Char) :
    Block → Nat → List Char
  | Block.mk content children, ind =>
    let c0 := pstrip content
    if c0 = [] ∧ children.isEmpty then []
    else
      let c3 := process_image_links fs optOk
        (resolve_links_for_html pp (preprocess_markdown h c0))
      let html0 := if c3 ≠ [] then md c3 else []
      let childHtml := block_tree_children fs optOk pp h md children (ind + 1)
      let html1 :=
        if ¬ children.isEmpty ∧ childHtml ≠ [] then
          html0 ++ "\n<ul>\n".toList ++ childHtml ++ "\n</ul>".toList
        else html0
      if ind > 0 then "<li>".toList ++ html1 ++ "</li>".toList else html1

/-- `"\n".join(block_tree_to_html(child, ...) for child in children)`
(lines 659-660). -/
def block_tree_children (fs : List (List Char × List (List Char)))
    (optOk : List Char → Bool) (pp : List (List Char × PageInfo))
    (h : List Char → Nat) (md : List Char → List Char) :
    List Block → Nat → List Char
  | [], _ => []
  | [b], ind => block_tree_to_html fs optOk pp h md b ind
  | b :: b1 :: bs, ind =>
    block_tree_to_html fs optOk pp h md b ind ++
      '\n' :: block_tree_children fs optOk pp h md (b1 :: bs) ind

end

/-- One block node of the heap model used for embed resolution: `uuid = []`
models a missing or empty (falsy) uuid, `children` are heap addresses, so
self-referencing and cyclic structures are representable. -/
structure HBlock where
  uuid : List Char
  content : List Char
  children : List Nat

/-- Modelled from the spec: `resolve_embeds` is called at line 751 but is
not defined anywhere in the repository.  Per the specification, an embed
marker references another block's content by identifier and is rendered
without full inlining (block-reference markers are removed entirely, not
resolved), so it is modelled as removing block-reference markers from the
content without recursing into any other block; the `processed` set and the
public-page mapping are passed through as at the call site but do not drive
any recursion. -/
def resolve_embeds (content : List Char) (processed : List (List Char))
    (pp : List (List Char × PageInfo)) : List Char :=
  blockRefSub content

mutual

/-- Fueled interpretation of `resolve_embeds_in_block` (lines 736-759) on
the heap model: a block whose truthy uuid was already processed is returned
unchanged; otherwise its uuid is recorded, its content is rewritten
(embeds, links, images) in place, and the children are visited in order
with the shared `processed` set threaded through.  `none` means the fuel ran
out before the procedure returned. -/
def resolveEmbedsFuel (fs : List (List Char × List (List Char)))
    (optOk : List Char → Bool) (pp : List (List Char × PageInfo)) :
    Nat → List HBlock → List (List Char) → Nat →
      Option (List HBlock × List (List Char))
  | 0, _, _, _ => none
  | n + 1, heap, processed, addr =>
    match heap[addr]? with
    | none => some (heap, processed)
    | some b =>
      if b.uuid ≠ [] ∧ b.uuid ∈ processed then some (heap, processed)
      else
        let processed1 := if b.uuid ≠ [] then b.uuid :: processed else processed
        let c3 := process_image_links fs optOk
          (resolve_links_for_html pp (resolve_embeds b.content processed1 pp))
        resolveChildrenFuel fs optOk pp n
          (heap.set addr { b with content := c3 }) processed1 b.children
termination_by n _ _ _ => (n, 0, 0)

/-- The children loop of `resolve_embeds_in_block` (lines 755-757). -/
def resolveChildrenFuel (fs : List (List Char × List (List Char)))
    (optOk : List Char → Bool) (pp : List (List Char × PageInfo)) :
    Nat → List HBlock → List (List Char) → List Nat →
      Option (List HBlock × List (List Char))
  | _, heap, processed, [] => some (heap, processed)
  | n, heap, processed, a :: as' =>
    match resolveEmbedsFuel fs optOk pp n heap processed a with
    | some (heap1, processed1) =>
      resolveChildrenFuel fs optOk pp n heap1 processed1 as'
    | none => none
termination_by n _ _ l => (n, 1, l.length)

end

/-- `resolve_embeds_in_block` run from the top (`processed = None` becomes
the empty set), with the given amount of fuel. -/
def resolve_embeds_in_block (fs : List (List Char × List (List Char)))
    (optOk : List Char → Bool) (pp : List (List Char × PageInfo))
    (fuel : Nat) (heap : List HBlock) (addr : Nat) :
    Option (List HBlock × List (List Char)) :=
  resolveEmbedsFuel fs optOk pp fuel heap [] addr

/-- Number of distinct block uuids in the heap not yet in the visited set:
the measure that bounds the embed-resolution recursion. -/
def uuidsLeft (heap : List HBlock) (processed : List (List Char)) : Nat :=
  ((heap.map HBlock.uuid).dedup.filter (fun u => decide (u ∉ processed))).length

end Logseq

/-! ### Theorems -/

namespace Logseq

theorem charOfNat_toNat (n : Nat) (h : n.isValidChar) : (Char.ofNat n).toNat = n := by
  simp [Char.ofNat, h, Char.ofNatAux, Char.toNat, UInt32.toNat, BitVec.toNat_ofNatLt]

theorem char_eq_of_toNat_eq {a b : Char} (h : a.toNat = b.toNat) : a = b :=
  Char.eq_of_val_eq (UInt32.ext h)

theorem char_le_iff_toNat {a b : Char} : a ≤ b ↔ a.toNat ≤ b.toNat := by
  rw [Char.le_def]
  exact Iff.rfl

theorem char_eq_iff_toNat {a b : Char} : a = b ↔ a.toNat = b.toNat :=
  ⟨fun h => h ▸ rfl, char_eq_of_toNat_eq⟩

theorem toLower_eq_of_not_upper {c : Char} (h : c.toNat < 65 ∨ 90 < c.toNat) :
    Char.toLower c = c := by
  simp only [Char.toLower]
  rw [if_neg]
  omega

theorem toLower_toNat_of_upper {c : Char} (h1 : 65 ≤ c.toNat) (h2 : c.toNat ≤ 90) :
    (Char.toLower c).toNat = c.toNat + 32 := by
  simp only [Char.toLower]
  rw [if_pos ⟨h1, h2⟩]
  exact charOfNat_toNat _ (by left; omega)

/-- The per-character action of `sanitize_filename`. -/
theorem sanitize_filename_eq_map (title : List Char) :
    sanitize_filename title =
      title.map (fun c =>
        Char.toLower (if isSafeChar (if c = '/' then '-' else c)
                      then (if c = '/' then '-' else c) else '_')) := by
  simp [sanitize_filename, List.map_map, Function.comp]

theorem isSafeChar_toNat (c : Char) :
    isSafeChar c =
      ((97 ≤ c.toNat ∧ c.toNat ≤ 122) ∨ (65 ≤ c.toNat ∧ c.toNat ≤ 90) ∨
       (48 ≤ c.toNat ∧ c.toNat ≤ 57) ∨ c.toNat = 45 ∨ c.toNat = 95 : Bool) := by
  simp [isSafeChar, char_le_iff_toNat, char_eq_iff_toNat]

theorem isOutChar_toNat (c : Char) :
    isOutChar c =
      ((97 ≤ c.toNat ∧ c.toNat ≤ 122) ∨ (48 ≤ c.toNat ∧ c.toNat ≤ 57) ∨
       c.toNat = 45 ∨ c.toNat = 95 : Bool) := by
  simp [isOutChar, char_le_iff_toNat, char_eq_iff_toNat]

/-- Every character produced by sanitisation lies in `[a-z0-9\-_]`. -/
theorem sanChar_out (c : Char) :
    isOutChar (Char.toLower (if isSafeChar (if c = '/' then '-' else c)
                             then (if c = '/' then '-' else c) else '_')) = true := by
  set d := if c = '/' then '-' else c with hd
  by_cases hs : isSafeChar d = true
  · rw [if_pos hs]
    rw [isSafeChar_toNat] at hs
    simp only [decide_eq_true_eq] at hs
    rw [isOutChar_toNat]
    simp only [decide_eq_true_eq]
    rcases hs with h | h | h | h | h
    · rw [toLower_eq_of_not_upper (by omega)]; omega
    · have := toLower_toNat_of_upper h.1 h.2
      omega
    · rw [toLower_eq_of_not_upper (by omega)]; omega
    · rw [toLower_eq_of_not_upper (by omega)]; omega
    · rw [toLower_eq_of_not_upper (by omega)]; omega
  · rw [if_neg hs]
    decide

/-- Characters already in `[a-z0-9\-_]` are fixed points of the
per-character sanitisation. -/
theorem sanChar_fixed {c : Char} (h : isOutChar c = true) :
    Char.toLower (if isSafeChar (if c = '/' then '-' else c)
                  then (if c = '/' then '-' else c) else '_') = c := by
  rw [isOutChar_toNat] at h
  simp only [decide_eq_true_eq] at h
  have hslash : ¬ (c = '/') := by
    intro he
    subst he
    revert h
    decide
  rw [if_neg hslash]
  have hsafe : isSafeChar c = true := by
    rw [isSafeChar_toNat]
    simp only [decide_eq_true_eq]
    rcases h with h | h | h | h
    · left; exact h
    · right; right; left; exact h
    · right; right; right; left; exact h
    · right; right; right; right; exact h
  rw [if_pos hsafe]
  apply toLower_eq_of_not_upper
  rcases h with h | h | h | h <;> omega

/-- C3: the output of `sanitize_filename` always matches `^[a-z0-9\-_]*$`. -/
theorem sanitize_filename_out (title : List Char) :
    (sanitize_filename title).all isOutChar = true := by
  rw [sanitize_filename_eq_map, List.all_eq_true]
  intro c hc
  rw [List.mem_map] at hc
  obtain ⟨a, _, rfl⟩ := hc
  exact sanChar_out a

/--
C3: Filename sanitisation is deterministic (it is a function) and
idempotent, and its output always matches `^[a-z0-9\-_]*$`: every character
of the result lies in `[a-z0-9\-_]`.
-/
theorem c3_sanitize_filename_idempotent (title : List Char) :
    sanitize_filename (sanitize_filename title) = sanitize_filename title ∧
    (sanitize_filename title).all isOutChar = true := by
  refine ⟨?_, sanitize_filename_out title⟩
  conv_lhs => rw [sanitize_filename_eq_map (sanitize_filename title)]
  have hpt : ∀ c ∈ sanitize_filename title,
      Char.toLower (if isSafeChar (if c = '/' then '-' else c)
                    then (if c = '/' then '-' else c) else '_') = id c := by
    intro c hc
    have := sanitize_filename_out title
    rw [List.all_eq_true] at this
    exact sanChar_fixed (this c hc)
  rw [List.map_congr_left hpt, List.map_id]

/--
C1: in `resolve_links_for_html`, an occurrence `[[Name]]` with a nonempty
name free of `]` becomes an HTML anchor whose href is the sanitized
filename plus `.html` and whose visible text is the name exactly when the
name is a key of the PublicPageSet, and an inert span with the same visible
text otherwise; in particular, for a PublicPageSet containing only `Foo`,
the text `see [[Foo]] and [[Bar]]` yields an anchor for `Foo` and an inert
span for `Bar`, preserving both names.
-/
theorem c1_link_resolution (pp : List (List Char × PageInfo)) (name : List Char)
    (h1 : name ≠ []) (h2 : ']' ∉ name) :
    resolve_links_for_html pp ('[' :: '[' :: (name ++ [']', ']'])) =
      (if containsKey pp name then
        "<a href=\"".toList ++ sanitize_filename name ++ ".html\">".toList ++
          name ++ "</a>".toList
      else
        "<span class=\"non-public-link\">".toList ++ name ++ "</span>".toList) ∧
    resolve_links_for_html [("Foo".toList, ⟨"u1".toList, "Foo".toList, false⟩)]
        "see [[Foo]] and [[Bar]]".toList =
      "see <a href=\"foo.html\">Foo</a> and <span class=\"non-public-link\">Bar</span>".toList := by
  constructor
  · have hall : ∀ a ∈ name, ((a ≠ ']') : Bool) := by
      intro a ha
      simp only [ne_eq, decide_eq_true_eq]
      rintro rfl
      exact h2 ha
    have htake : (name ++ [']', ']']).takeWhile (· ≠ ']') = name := by
      rw [List.takeWhile_append_of_pos hall]
      simp
    have hdrop : (name ++ [']', ']']).dropWhile (· ≠ ']') = [']', ']'] := by
      rw [List.dropWhile_append]
      have hnil : (name.dropWhile (· ≠ ']')) = [] := by
        rw [List.dropWhile_eq_nil_iff]
        intro a ha
        simpa using hall a ha
      simp [hnil]
      intro hmem
      exact absurd hmem h2
    rw [resolve_links_for_html]
    simp only [htake, hdrop]
    rw [if_pos ⟨h1, by simp [List.isPrefixOf]⟩]
    simp [resolve_links_for_html, linkRepl]
  · simp [resolve_links_for_html, linkRepl, containsKey, sanitize_filename, isSafeChar]

/-- Witness for C1 at the concrete input `Bar` with an empty page set. -/
theorem c1_link_resolution_witness :
    ("Bar".toList ≠ [] ∧ ']' ∉ "Bar".toList) ∧
    (resolve_links_for_html [] ('[' :: '[' :: ("Bar".toList ++ [']', ']'])) =
      (if containsKey [] "Bar".toList then
        "<a href=\"".toList ++ sanitize_filename "Bar".toList ++ ".html\">".toList ++
          "Bar".toList ++ "</a>".toList
      else
        "<span class=\"non-public-link\">".toList ++ "Bar".toList ++ "</span>".toList) ∧
    resolve_links_for_html [("Foo".toList, ⟨"u1".toList, "Foo".toList, false⟩)]
        "see [[Foo]] and [[Bar]]".toList =
      "see <a href=\"foo.html\">Foo</a> and <span class=\"non-public-link\">Bar</span>".toList) :=
  ⟨⟨by decide, by decide⟩, c1_link_resolution [] "Bar".toList (by decide) (by decide)⟩

theorem add_page_inv {p : PageRec} {st : GPState} (h : GPInv st) : GPInv (add_page p st) := by
  unfold add_page
  split
  · next hc =>
    obtain ⟨hiff, hnd⟩ := h
    constructor
    · intro t
      simp only [List.map_append, List.mem_append, List.mem_cons, List.map_cons,
        List.map_nil, List.mem_singleton]
      rw [hiff t]
      tauto
    · simp only [List.map_append, List.map_cons, List.map_nil]
      rw [List.nodup_append]
      refine ⟨hnd, by simp, ?_⟩
      intro t ht
      simp only [List.mem_cons, List.not_mem_nil, or_false, List.mem_singleton]
      intro he
      subst he
      exact hc.2.2 ((hiff _).mpr ht)
  · exact h

theorem add_page_keys_mono {p : PageRec} {st : GPState} {t : List Char}
    (h : t ∈ st.pubs.map Prod.fst) : t ∈ (add_page p st).pubs.map Prod.fst := by
  unfold add_page
  split
  · simp only [List.map_append, List.mem_append]
    exact Or.inl h
  · exact h

theorem add_page_mem {p : PageRec} {st : GPState} (hinv : GPInv st)
    (hu : p.uuid.getD [] ≠ []) (ht : getName p ≠ []) :
    getName p ∈ (add_page p st).pubs.map Prod.fst := by
  unfold add_page
  by_cases hc : p.uuid.getD [] ≠ [] ∧ getName p ≠ [] ∧ getName p ∉ st.processed
  · rw [if_pos hc]
    simp only [List.map_append, List.mem_append, List.map_cons, List.map_nil,
      List.mem_singleton]
    right
    trivial
  · rw [if_neg hc]
    push_neg at hc
    exact (hinv.1 _).mp (hc hu ht)

theorem foldl_add_page_inv {l : List PageRec} {st : GPState} (h : GPInv st) :
    GPInv (l.foldl (fun s q => add_page q s) st) := by
  induction l generalizing st with
  | nil => exact h
  | cons q l ih => exact ih (add_page_inv h)

theorem foldl_add_page_keys_mono {l : List PageRec} {st : GPState} {t : List Char}
    (h : t ∈ st.pubs.map Prod.fst) :
    t ∈ (l.foldl (fun s q => add_page q s) st).pubs.map Prod.fst := by
  induction l generalizing st with
  | nil => exact h
  | cons q l ih => exact ih (add_page_keys_mono h)

theorem foldl_add_page_mem {l : List PageRec} {st : GPState} {q : PageRec}
    (hinv : GPInv st) (hq : q ∈ l) (hu : q.uuid.getD [] ≠ []) (ht : getName q ≠ []) :
    getName q ∈ (l.foldl (fun s p => add_page p s) st).pubs.map Prod.fst := by
  induction l generalizing st with
  | nil => cases hq
  | cons r l ih =>
    rw [List.foldl_cons]
    rcases List.mem_cons.mp hq with heq | hq
    · subst heq
      exact foldl_add_page_keys_mono (add_page_mem hinv hu ht)
    · exact ih (add_page_inv hinv) hq

theorem gpStep_inv {pages : List PageRec} {p : PageRec} {st : GPState} (h : GPInv st) :
    GPInv (gpStep pages st p) := by
  unfold gpStep
  split
  · split
    · exact foldl_add_page_inv (add_page_inv h)
    · exact add_page_inv h
  · exact h

theorem gpStep_keys_mono {pages : List PageRec} {p : PageRec} {st : GPState} {t : List Char}
    (h : t ∈ st.pubs.map Prod.fst) : t ∈ (gpStep pages st p).pubs.map Prod.fst := by
  unfold gpStep
  split
  · split
    · exact foldl_add_page_keys_mono (add_page_keys_mono h)
    · exact add_page_keys_mono h
  · exact h

theorem foldl_gpStep_inv {pages l : List PageRec} {st : GPState} (h : GPInv st) :
    GPInv (l.foldl (gpStep pages) st) := by
  induction l generalizing st with
  | nil => exact h
  | cons p l ih => exact ih (gpStep_inv h)

theorem foldl_gpStep_keys_mono {pages l : List PageRec} {st : GPState} {t : List Char}
    (h : t ∈ st.pubs.map Prod.fst) : t ∈ (l.foldl (gpStep pages) st).pubs.map Prod.fst := by
  induction l generalizing st with
  | nil => exact h
  | cons p l ih => exact ih (gpStep_keys_mono h)

theorem is_page_public_of_children {p : PageRec} (h : is_public_children p = true) :
    is_page_public p = true := by
  unfold is_public_children at h
  unfold is_page_public
  simp only [decide_eq_true_eq] at h
  simp [h]

theorem gpStep_mem_nested {pages : List PageRec} {p q : PageRec} {st : GPState}
    (hinv : GPInv st) (hps : pages ≠ []) (hch : is_public_children p = true)
    (hq : q ∈ pages) (hu : q.uuid.getD [] ≠ [])
    (hpre : (pstrip (getName p) ++ ['/']).isPrefixOf (getName q) = true) :
    getName q ∈ (gpStep pages st p).pubs.map Prod.fst := by
  have hname : getName q ≠ [] := by
    intro hnil
    rw [List.isPrefixOf_iff_prefix, hnil, List.prefix_nil] at hpre
    exact absurd hpre (by simp)
  have hqn : q ∈ get_nested_pages pages (getName p) := by
    unfold get_nested_pages
    rw [if_neg hps, List.mem_filter]
    exact ⟨hq, hpre⟩
  unfold gpStep
  rw [if_pos (is_page_public_of_children hch), if_pos hch]
  exact foldl_add_page_mem (add_page_inv hinv) hqn hu hname

/--
C2 (amended): in the mapping returned by `get_public_pages`, every title
appears at most once; and for every page whose public property equals
`children`, every page record carrying a truthy uuid whose trimmed title
starts with that page's trimmed title followed by `/` is a member of the
set.  (A descendant record without a uuid is skipped by `add_page`, which
is what refutes the original claim.)
-/
theorem c2_public_page_set :
    (∀ pages : List PageRec, ((get_public_pages pages).map Prod.fst).Nodup) ∧
    (∀ (pages : List PageRec) (p q : PageRec), p ∈ pages →
      is_public_children p = true → q ∈ pages → q.uuid.getD [] ≠ [] →
      (pstrip (getName p) ++ ['/']).isPrefixOf (getName q) = true →
      getName q ∈ (get_public_pages pages).map Prod.fst) := by
  have hinv0 : GPInv ⟨[], []⟩ := ⟨by simp, by simp⟩
  constructor
  · intro pages
    unfold get_public_pages
    split
    · simp
    · exact (foldl_gpStep_inv hinv0).2
  · intro pages p q hp hch hq hu hpre
    have hps : pages ≠ [] := by rintro rfl; cases hp
    unfold get_public_pages
    rw [if_neg hps]
    obtain ⟨l₁, l₂, rfl⟩ := List.append_of_mem hp
    rw [List.foldl_append, List.foldl_cons]
    refine foldl_gpStep_keys_mono ?_
    exact gpStep_mem_nested (foldl_gpStep_inv hinv0) hps hch hq hu hpre

/-- Witness for C2 at a concrete page list: the parent `A` is marked
`public:: children` and the descendant `A/B` carries a uuid, so `A/B` is a
member of the returned mapping. -/
theorem c2_public_page_set_witness :
    (⟨some "A".toList, none, some "u1".toList, some (PubVal.pStr "children".toList)⟩ : PageRec) ∈
        ([⟨some "A".toList, none, some "u1".toList, some (PubVal.pStr "children".toList)⟩,
          ⟨some "A/B".toList, none, some "u2".toList, none⟩] : List PageRec) ∧
    getName (⟨some "A/B".toList, none, some "u2".toList, none⟩ : PageRec) ∈
      (get_public_pages
        [⟨some "A".toList, none, some "u1".toList, some (PubVal.pStr "children".toList)⟩,
         ⟨some "A/B".toList, none, some "u2".toList, none⟩]).map Prod.fst := by
  refine ⟨by decide, ?_⟩
  exact c2_public_page_set.2
    [⟨some "A".toList, none, some "u1".toList, some (PubVal.pStr "children".toList)⟩,
     ⟨some "A/B".toList, none, some "u2".toList, none⟩]
    ⟨some "A".toList, none, some "u1".toList, some (PubVal.pStr "children".toList)⟩
    ⟨some "A/B".toList, none, some "u2".toList, none⟩
    (by decide) (by decide) (by decide) (by decide) (by decide)

/--
C2 counterexample: with a parent `A` marked `public:: children` and a
descendant record `A/B` that has no uuid, the descendant's trimmed title
starts with `A/` yet it is not a member of the mapping returned by
`get_public_pages`, refuting the claim that every path-prefixed descendant
page is a member.
-/
theorem c2_counterexample :
    is_public_children
        (⟨some "A".toList, none, some "u1".toList, some (PubVal.pStr "children".toList)⟩ :
          PageRec) = true ∧
    (pstrip (getName (⟨some "A".toList, none, some "u1".toList,
        some (PubVal.pStr "children".toList)⟩ : PageRec)) ++ ['/']).isPrefixOf
      (getName (⟨some "A/B".toList, none, none, none⟩ : PageRec)) = true ∧
    getName (⟨some "A/B".toList, none, none, none⟩ : PageRec) ∉
      (get_public_pages
        [⟨some "A".toList, none, some "u1".toList, some (PubVal.pStr "children".toList)⟩,
         ⟨some "A/B".toList, none, none, none⟩]).map Prod.fst := by
  refine ⟨by decide, by decide, ?_⟩
  decide

theorem findSome?_if_any {α β : Type} (l : List α) (p : α → Bool) (g : α → β)
    (h : l.any p = true) :
    ∃ v ∈ l, p v = true ∧
      l.findSome? (fun x => if p x then some (g x) else none) = some (g v) := by
  induction l with
  | nil => simp at h
  | cons a l ih =>
    by_cases hpa : p a = true
    · exact ⟨a, by simp, hpa, by simp [List.findSome?_cons, hpa]⟩
    · have h' : l.any p = true := by
        rw [List.any_cons, Bool.or_eq_true] at h
        exact h.resolve_left hpa
      obtain ⟨v, hv, hpv, hf⟩ := ih h'
      exact ⟨v, List.mem_cons_of_mem _ hv, hpv,
        by simp [List.findSome?_cons, hpa, hf]⟩

/--
C4 (amended): within a single candidate directory, exact variant matches
take precedence over case-insensitive substring matches — whenever the first
candidate directory that produces any result contains a file exactly equal
to one of the spelling variants, `find_asset` returns that exact match.
Across directories, however, the directory order is outermost, so a
substring match in an earlier directory wins over an exact match in a later
one (which is what refutes the original claim).
-/
theorem c4_exact_over_substring (filename : List Char)
    (fs₁ fs₂ : List (List Char × List (List Char)))
    (d : List Char × List (List Char))
    (h1 : ∀ e ∈ fs₁, searchLocation filename e = none)
    (h2 : (variations filename).any (fun v => d.2.contains v) = true) :
    ∃ v ∈ variations filename, d.2.contains v = true ∧
      find_asset (fs₁ ++ d :: fs₂) filename = some (pathJoin d.1 v) := by
  obtain ⟨v, hv, hpv, hfind⟩ :=
    findSome?_if_any (variations filename) (fun v => d.2.contains v) (pathJoin d.1) h2
  have hd : searchLocation filename d = some (pathJoin d.1 v) := by
    unfold searchLocation
    rw [hfind]
  refine ⟨v, hv, hpv, ?_⟩
  unfold find_asset
  induction fs₁ with
  | nil => simp [List.findSome?_cons, hd]
  | cons e fs₁ ih =>
    rw [List.cons_append, List.findSome?_cons, h1 e (by simp)]
    exact ih (fun e' he' => h1 e' (List.mem_cons_of_mem _ he'))

/-- Witness for C4: a single candidate directory holding `my_photo.jpg`
resolves the reference `my_photo.jpg` to that exact file. -/
theorem c4_exact_over_substring_witness :
    ((variations "my_photo.jpg".toList).any
      (fun v => ["my_photo.jpg".toList].contains v) = true) ∧
    (∃ v ∈ variations "my_photo.jpg".toList,
      ["my_photo.jpg".toList].contains v = true ∧
      find_asset ([] ++ ("loc2".toList, ["my_photo.jpg".toList]) :: [])
          "my_photo.jpg".toList =
        some (pathJoin "loc2".toList v)) :=
  ⟨by simp [variations, dedupFirst, pyReplace],
   c4_exact_over_substring "my_photo.jpg".toList [] []
     ("loc2".toList, ["my_photo.jpg".toList])
     (fun e he => absurd he (List.not_mem_nil e))
     (by simp [variations, dedupFirst, pyReplace])⟩

/--
C4 counterexample: the first candidate directory `loc1` contains only the
substring match `my_photo_backup.jpg` while the second directory `loc2`
contains the exact variant `my_photo.jpg`; `find_asset` nevertheless returns
the substring match from `loc1`, so an exact variant match in a candidate
directory is lost to a substring match of an earlier directory.
-/
theorem c4_counterexample :
    (variations "my_photo.jpg".toList).any
        (fun v => (["my_photo.jpg".toList] : List (List Char)).contains v) = true ∧
    find_asset
        [("loc1".toList, ["my_photo_backup.jpg".toList]),
         ("loc2".toList, ["my_photo.jpg".toList])] "my_photo.jpg".toList =
      some ("loc1/my_photo_backup.jpg".toList) ∧
    some ("loc1/my_photo_backup.jpg".toList) ≠
      some (pathJoin "loc2".toList "my_photo.jpg".toList) := by
  refine ⟨by simp [variations, dedupFirst, pyReplace], ?_, by decide⟩
  simp [find_asset, searchLocation, variations, baseVariations, dedupFirst,
    pyReplace, splitExt, baseName, pathJoin, lowerStr, List.findSome?_cons,
    substrOf, List.isPrefixOf]

theorem splitLines_ne_nil (s : List Char) : splitLines s ≠ [] := by
  match s with
  | [] => simp [splitLines]
  | c :: rest =>
    rw [splitLines]
    by_cases hc : c = '\n'
    · simp [hc]
    · rw [if_neg hc]
      cases splitLines rest <;> simp

theorem mem_splitLines_no_newline {s l : List Char} (h : l ∈ splitLines s) :
    '\n' ∉ l := by
  induction s generalizing l with
  | nil =>
    rw [splitLines] at h
    simp at h
    simp [h]
  | cons c rest ih =>
    rw [splitLines] at h
    by_cases hc : c = '\n'
    · rw [if_pos hc] at h
      rcases List.mem_cons.mp h with rfl | h
      · simp
      · exact ih h
    · rw [if_neg hc] at h
      cases hsp : splitLines rest with
      | nil => exact absurd hsp (splitLines_ne_nil rest)
      | cons l0 ls =>
        rw [hsp] at h
        rcases List.mem_cons.mp h with rfl | h
        · intro hm
          rcases List.mem_cons.mp hm with he | hm
          · exact hc he.symm
          · exact ih (hsp ▸ List.mem_cons_self l0 ls) hm
        · exact ih (hsp ▸ List.mem_cons_of_mem l0 h)

theorem joinLines_splitLines (s : List Char) : joinLines (splitLines s) = s := by
  induction s with
  | nil => simp [splitLines, joinLines]
  | cons c rest ih =>
    rw [splitLines]
    by_cases hc : c = '\n'
    · rw [if_pos hc]
      cases hsp : splitLines rest with
      | nil => exact absurd hsp (splitLines_ne_nil rest)
      | cons l0 ls =>
        rw [joinLines, hc]
        rw [hsp] at ih
        simp [ih]
    · rw [if_neg hc]
      cases hsp : splitLines rest with
      | nil => exact absurd hsp (splitLines_ne_nil rest)
      | cons l0 ls =>
        rw [hsp] at ih
        cases ls with
        | nil =>
          rw [joinLines] at ih ⊢
          rw [ih]
        | cons l1 ls' =>
          rw [joinLines] at ih ⊢
          rw [List.cons_append, ih]

theorem splitLines_no_newline {l : List Char} (h : '\n' ∉ l) : splitLines l = [l] := by
  induction l with
  | nil => simp [splitLines]
  | cons c rest ih =>
    rw [splitLines]
    have hc : ¬ (c = '\n') := fun he => h (he ▸ List.mem_cons_self c rest)
    rw [if_neg hc, ih (fun hm => h (List.mem_cons_of_mem c hm))]

theorem splitLines_append_newline {a : List Char} (t : List Char) (h : '\n' ∉ a) :
    splitLines (a ++ '\n' :: t) = a :: splitLines t := by
  induction a with
  | nil => simp [splitLines]
  | cons c a' ih =>
    have hc : ¬ (c = '\n') := fun he => h (he ▸ List.mem_cons_self c a')
    rw [List.cons_append, splitLines, if_neg hc,
      ih (fun hm => h (List.mem_cons_of_mem c hm))]

theorem splitLines_joinLines {ls : List (List Char)} (hne : ls ≠ [])
    (hnn : ∀ l ∈ ls, '\n' ∉ l) : splitLines (joinLines ls) = ls := by
  induction ls with
  | nil => exact absurd rfl hne
  | cons l ls ih =>
    cases ls with
    | nil =>
      rw [joinLines]
      exact splitLines_no_newline (hnn l (by simp))
    | cons l1 ls' =>
      rw [joinLines, splitLines_append_newline _ (hnn l (by simp))]
      rw [ih (by simp) (fun x hx => hnn x (List.mem_cons_of_mem l hx))]

theorem tail_splitLines_append {a : List Char} (b : List Char) (h : '\n' ∉ a) :
    (splitLines (a ++ b)).tail = (splitLines b).tail := by
  induction a with
  | nil => simp
  | cons c a' ih =>
    have hc : ¬ (c = '\n') := fun he => h (he ▸ List.mem_cons_self c a')
    rw [List.cons_append, splitLines, if_neg hc]
    have ih' := ih (fun hm => h (List.mem_cons_of_mem c hm))
    cases hsp : splitLines (a' ++ b) with
    | nil => exact absurd hsp (splitLines_ne_nil _)
    | cons l0 ls =>
      rw [hsp] at ih'
      simpa using ih'

theorem fpGo_acc (h : List Char → Nat) (ls : List (List Char))
    (lines : List (List Char)) (props : List (List Char × List Char)) :
    fpGo h ls lines props = lines ++ fpGo h ls [] props := by
  induction ls generalizing lines props with
  | nil =>
    rw [fpGo, fpGo]
    split <;> simp
  | cons l ls ih =>
    rw [fpGo, fpGo]
    cases hp : parseProp (pstrip l) with
    | some kv =>
      by_cases hres : kv.1 = "id".toList ∨ kv.1 = "public".toList
      · simp only [hres, if_true]
        exact ih lines props
      · simp only [hres, if_false]
        exact ih lines (props ++ [(pstrip kv.1, pstrip kv.2)])
    | none =>
      simp only
      rw [ih]
      conv_rhs => rw [ih]
      by_cases hprops : props ≠ [] <;> by_cases hl : pstrip l ≠ [] <;>
        simp [hprops, hl]

theorem spec_unfold (h : List Char → Nat) (ls : List (List Char)) :
    specFormatLines h ls =
      (if capturedPairs (ls.takeWhile isPropLine) = [] then []
       else [renderProps h (capturedPairs (ls.takeWhile isPropLine))]) ++
        specFormatLines h (ls.dropWhile isPropLine) := by
  cases ls with
  | nil => simp [specFormatLines, capturedPairs]
  | cons l ls =>
    by_cases hl : isPropLine l
    · rw [specFormatLines, if_pos hl, List.takeWhile_cons_of_pos hl,
        List.dropWhile_cons_of_pos hl]
    · rw [List.takeWhile_cons_of_neg hl, List.dropWhile_cons_of_neg hl]
      simp [capturedPairs]

theorem fpGo_eq_spec (h : List Char → Nat) (ls : List (List Char))
    (props : List (List Char × List Char)) :
    fpGo h ls [] props =
      (if props ++ capturedPairs (ls.takeWhile isPropLine) = [] then []
       else [renderProps h (props ++ capturedPairs (ls.takeWhile isPropLine))]) ++
        specFormatLines h (ls.dropWhile isPropLine) := by
  induction ls generalizing props with
  | nil =>
    by_cases hp : props = [] <;>
      simp [fpGo, hp, specFormatLines, capturedPairs]
  | cons l ls ih =>
    by_cases hl : isPropLine l
    · obtain ⟨kv, hp⟩ := Option.isSome_iff_exists.mp hl
      obtain ⟨k, v⟩ := kv
      rw [fpGo]
      simp only [hp]
      rw [List.takeWhile_cons_of_pos hl, List.dropWhile_cons_of_pos hl]
      have hcap : capturedPairs (l :: ls.takeWhile isPropLine) =
          (if k = "id".toList ∨ k = "public".toList then []
           else [(pstrip k, pstrip v)]) ++
            capturedPairs (ls.takeWhile isPropLine) := by
        by_cases hres : k = "id".toList ∨ k = "public".toList
        · simp only [capturedPairs, List.filterMap_cons, hp, if_pos hres,
            List.nil_append]
        · simp only [capturedPairs, List.filterMap_cons, hp, if_neg hres,
            List.singleton_append]
      by_cases hres : k = "id".toList ∨ k = "public".toList
      · simp only [hres, if_true]
        rw [ih props, hcap, if_pos hres]
        simp
      · simp only [hres, if_false]
        rw [ih (props ++ [(pstrip k, pstrip v)]), hcap, if_neg hres]
        simp
    · have hp : parseProp (pstrip l) = none := by
        rw [isPropLine] at hl
        simpa using hl
      rw [fpGo]
      simp only [hp]
      rw [fpGo_acc]
      rw [List.takeWhile_cons_of_neg hl, List.dropWhile_cons_of_neg hl]
      rw [specFormatLines, if_neg hl]
      rw [ih []]
      simp only [List.nil_append]
      rw [← spec_unfold h ls]
      simp only [List.takeWhile_nil, capturedPairs, List.filterMap_nil,
        List.append_nil, List.nil_append]
      by_cases hprops : props ≠ [] <;> by_cases hpl : pstrip l ≠ [] <;>
        simp [hprops, hpl, renderLine]

/--
C5: `format_properties` on `a:: 1\nb:: 2\nSome text` produces exactly one
grouped property section holding the two pairs in input order followed by
the paragraph-wrapped `Some text`; and in general the formatter flushes each
maximal contiguous run of property lines (reserved keys excluded), once
terminated by a non-property line or the end of the text, as exactly one
grouped block — its line loop agrees with the specification-side run
grouping `specFormatLines` for every input and every hash function.
-/
theorem c5_property_formatter (h : List Char → Nat) :
    format_properties h "a:: 1\nb:: 2\nSome text".toList =
      renderProps h [("a".toList, "1".toList), ("b".toList, "2".toList)] ++
        '\n' :: wrapP "Some text".toList ∧
    ∀ content : List Char,
      fpGo h (splitLines content) [] [] = specFormatLines h (splitLines content) := by
  constructor
  · rfl
  · intro content
    rw [fpGo_eq_spec h _ []]
    simp only [List.nil_append]
    rw [← spec_unfold]

theorem taskStep_no_newline {pat repl x : List Char} (hr : '\n' ∉ repl)
    (hx : '\n' ∉ x) : '\n' ∉ taskStep pat repl x := by
  rw [taskStep]
  split
  · intro hm
    rcases List.mem_append.mp hm with hm | hm
    · exact hr hm
    · exact hx (List.mem_of_mem_drop hm)
  · exact hx

theorem taskRewriteLine_no_newline {l : List Char} (h : '\n' ∉ l) :
    '\n' ∉ taskRewriteLine l := by
  rw [taskRewriteLine]
  refine taskStep_no_newline (by decide) ?_
  refine taskStep_no_newline (by decide) ?_
  refine taskStep_no_newline (by decide) ?_
  refine taskStep_no_newline (by decide) ?_
  exact taskStep_no_newline (by decide) h

theorem taskRewriteLine_no_task (l : List Char) :
    startsTaskPrefix (taskRewriteLine l) = false := by
  rw [taskRewriteLine]
  by_cases h1 : "DONE ".toList.isPrefixOf l
  · rw [show taskStep "DONE ".toList "- [x] ".toList l =
        "- [x] ".toList ++ l.drop ("DONE ".toList.length) from by
      rw [taskStep, if_pos h1]]
    rfl
  · rw [show taskStep "DONE ".toList "- [x] ".toList l = l from by
      rw [taskStep, if_neg h1]]
    by_cases h2 : "DOING ".toList.isPrefixOf l
    · rw [show taskStep "DOING ".toList "- [ ] ".toList l =
          "- [ ] ".toList ++ l.drop ("DOING ".toList.length) from by
        rw [taskStep, if_pos h2]]
      rfl
    · rw [show taskStep "DOING ".toList "- [ ] ".toList l = l from by
        rw [taskStep, if_neg h2]]
      by_cases h3 : "TODO ".toList.isPrefixOf l
      · rw [show taskStep "TODO ".toList "- [ ] ".toList l =
            "- [ ] ".toList ++ l.drop ("TODO ".toList.length) from by
          rw [taskStep, if_pos h3]]
        rfl
      · rw [show taskStep "TODO ".toList "- [ ] ".toList l = l from by
          rw [taskStep, if_neg h3]]
        by_cases h4 : "NOW ".toList.isPrefixOf l
        · rw [show taskStep "NOW ".toList "- [ ] ".toList l =
              "- [ ] ".toList ++ l.drop ("NOW ".toList.length) from by
            rw [taskStep, if_pos h4]]
          rfl
        · rw [show taskStep "NOW ".toList "- [ ] ".toList l = l from by
            rw [taskStep, if_neg h4]]
          by_cases h5 : "LATER ".toList.isPrefixOf l
          · rw [show taskStep "LATER ".toList "- [ ] ".toList l =
                "- [ ] ".toList ++ l.drop ("LATER ".toList.length) from by
              rw [taskStep, if_pos h5]]
            rfl
          · rw [show taskStep "LATER ".toList "- [ ] ".toList l = l from by
              rw [taskStep, if_neg h5]]
            simp only [startsTaskPrefix]
            simp only [List.isPrefixOf_iff_prefix]
            refine decide_eq_false ?_
            push_neg
            exact ⟨fun hp => h1 (List.isPrefixOf_iff_prefix.mpr hp),
              fun hp => h2 (List.isPrefixOf_iff_prefix.mpr hp),
              fun hp => h3 (List.isPrefixOf_iff_prefix.mpr hp),
              fun hp => h4 (List.isPrefixOf_iff_prefix.mpr hp),
              fun hp => h5 (List.isPrefixOf_iff_prefix.mpr hp)⟩

theorem taskStep_tail {pat repl : List Char} (x : List Char)
    (hp : '\n' ∉ pat) (hr : '\n' ∉ repl) :
    (splitLines (taskStep pat repl x)).tail = (splitLines x).tail := by
  rw [taskStep]
  split
  · next hpre =>
    obtain ⟨rest, rfl⟩ := List.isPrefixOf_iff_prefix.mp hpre
    rw [List.drop_left]
    rw [tail_splitLines_append rest hr, tail_splitLines_append rest hp]
  · rfl

/--
C6 (amended): in the markdown-compiler path (`preprocess_markdown`), the
task-marker step rewrites every line-initial task prefix, and no line of its
output starts with a task prefix; in the block-by-block path
(`process_block`), the task substitutions lack `re.MULTILINE`, so only a
prefix at the start of the whole content is rewritten to an emoji glyph and
every later line is left unchanged — a line-initial task prefix on a
non-first line survives.
-/
theorem c6_task_marker_paths :
    (∀ content : List Char, ∀ l ∈ splitLines (fix_task_markers content),
        startsTaskPrefix l = false) ∧
    (∀ content : List Char,
        (splitLines (emojiTaskMarkers content)).tail = (splitLines content).tail) := by
  constructor
  · intro content l hl
    rw [fix_task_markers] at hl
    rw [splitLines_joinLines (by simp [splitLines_ne_nil])
      (by
        intro x hx
        obtain ⟨x0, hx0, rfl⟩ := List.mem_map.mp hx
        exact taskRewriteLine_no_newline (mem_splitLines_no_newline hx0))] at hl
    obtain ⟨x0, _, rfl⟩ := List.mem_map.mp hl
    exact taskRewriteLine_no_task x0
  · intro content
    rw [emojiTaskMarkers]
    rw [taskStep_tail _ (by decide) (by decide)]
    rw [taskStep_tail _ (by decide) (by decide)]
    rw [taskStep_tail _ (by decide) (by decide)]
    rw [taskStep_tail _ (by decide) (by decide)]
    rw [taskStep_tail _ (by decide) (by decide)]

theorem htmlImgSub_no_lt (repl : List Char → List Char) {s : List Char}
    (h : '<' ∉ s) : htmlImgSub repl s = s := by
  induction s with
  | nil => rw [htmlImgSub]
  | cons c rest ih =>
    have hc : ¬ (c = '<') := fun he => h (he ▸ List.mem_cons_self c rest)
    have hr : '<' ∉ rest := fun hm => h (List.mem_cons_of_mem c hm)
    rw [htmlImgSub.eq_def]
    split
    · rename_i heq
      simp only [List.cons.injEq] at heq
      exact absurd heq.1 hc
    · rename_i c' rest' heq
      simp only [List.cons.injEq] at heq
      rw [← heq.1, ← heq.2, ih hr]
    · rename_i heq
      exact absurd heq (List.cons_ne_nil c rest)

theorem mdImgSub_no_bang (repl : List Char → List Char) {s : List Char}
    (h : '!' ∉ s) : mdImgSub repl s = s := by
  induction s with
  | nil => rw [mdImgSub]
  | cons c rest ih =>
    have hc : ¬ (c = '!') := fun he => h (he ▸ List.mem_cons_self c rest)
    have hr : '!' ∉ rest := fun hm => h (List.mem_cons_of_mem c hm)
    rw [mdImgSub.eq_def]
    split
    · rename_i heq
      simp only [List.cons.injEq] at heq
      exact absurd heq.1 hc
    · rename_i c' rest' heq
      simp only [List.cons.injEq] at heq
      rw [← heq.1, ← heq.2, ih hr]
    · rename_i heq
      exact absurd heq (List.cons_ne_nil c rest)

theorem process_image_links_no_op (fs : List (List Char × List (List Char)))
    (optOk : List Char → Bool) {s : List Char} (h1 : '!' ∉ s) (h2 : '<' ∉ s) :
    process_image_links fs optOk s = s := by
  rw [process_image_links, mdImgSub_no_bang _ h1, htmlImgSub_no_lt _ h2]

/--
C6 counterexample: in the block-by-block path, for a block whose content is
`TODO a\nTODO b` the output still contains the paragraph `<p>TODO b</p>`: the
task prefix at the start of the second line survives into the output, because
the substitutions in `process_block` are not MULTILINE.
-/
theorem c6_counterexample :
    process_block [] (fun _ => false) []
        (Block.mk "TODO a\nTODO b".toList []) =
      ("<div class=".toList ++ [sq] ++ "block".toList ++ [sq] ++ ">".toList) ++
        ("<p>".toList ++ [Char.ofNat 0x2610, ' ', 'a'] ++ "</p>".toList) ++
        '\n' :: ("<p>TODO b</p>".toList ++ "</div>".toList) ∧
    substrOf "<p>TODO b</p>".toList
      (process_block [] (fun _ => false) []
        (Block.mk "TODO a\nTODO b".toList [])) = true := by
  have he : process_block [] (fun _ => false) []
      (Block.mk "TODO a\nTODO b".toList []) =
    ("<div class=".toList ++ [sq] ++ "block".toList ++ [sq] ++ ">".toList) ++
      ("<p>".toList ++ [Char.ofNat 0x2610, ' ', 'a'] ++ "</p>".toList) ++
      '\n' :: ("<p>TODO b</p>".toList ++ "</div>".toList) := by
    rw [process_block]
    simp [pstrip, isPyWs, splitLines, joinLines, clean_logseq_metadata, scrub,
      idMatch, uuidMatch, publicMatch, matchUuidCore, hexRun, isHexDash,
      isHexChar, emojiTaskMarkers, taskStep, processLine, subPair, findClose,
      subCode, subUrls, resolve_links_for_html, sq, List.isPrefixOf,
      process_image_links_no_op]
  refine ⟨he, ?_⟩
  rw [he]
  decide

/--
C7: when no candidate directory holds any exact spelling variant nor any
case-insensitive substring match for an image reference, `find_asset`
returns the failure sentinel `none`, and `process_image_links` replaces the
Markdown image reference by the visible placeholder
`[Image not found: <cleaned name>]` instead of an `<img>` tag (the cleaned
name is the requested path after URL-decoding and prefix stripping); the
substitution is a total function, so image-link processing never fails the
page.
-/
theorem c7_missing_asset (fs : List (List Char × List (List Char)))
    (optOk : List Char → Bool) (n p : List Char)
    (hex : ∀ d ∈ fs, (∀ v ∈ variations n, d.2.contains v = false) ∧
      (∀ f ∈ d.2, ∀ bv ∈ baseVariations n,
        substrOf (lowerStr bv) (lowerStr f) = false))
    (hp1 : p ≠ []) (hp2 : ∀ c ∈ p, c ≠ ')') (hp3 : '<' ∉ cleanImgPath p)
    (hfa : find_asset fs (cleanImgPath p) = none) :
    find_asset fs n = none ∧
    process_image_links fs optOk ("![](".toList ++ (p ++ [')'])) =
      "[Image not found: ".toList ++ cleanImgPath p ++ "]".toList := by
  constructor
  · rw [find_asset, List.findSome?_eq_none_iff]
    intro d hd
    rw [searchLocation]
    have h1 : (variations n).findSome?
        (fun v => if d.2.contains v then some (pathJoin d.1 v) else none) = none := by
      rw [List.findSome?_eq_none_iff]
      intro v hv
      rw [(hex d hd).1 v hv]
      simp
    rw [h1]
    simp only
    rw [List.findSome?_eq_none_iff]
    intro f hf
    have h2 : ((baseVariations n).any
        (fun bv => substrOf (lowerStr bv) (lowerStr f))) = false := by
      rw [List.any_eq_false]
      intro bv hbv
      simp [(hex d hd).2 f hf bv hbv]
    rw [h2]
    simp
  · have hall : ∀ c ∈ p, ((c ≠ ')') : Bool) := by
      intro c hc
      simpa using hp2 c hc
    have htake : (p ++ [')']).takeWhile (· ≠ ')') = p := by
      rw [List.takeWhile_append_of_pos hall]
      simp
    have hdrop : (p ++ [')']).dropWhile (· ≠ ')') = [')'] := by
      rw [List.dropWhile_append]
      have hnil : (p.dropWhile (· ≠ ')')) = [] := by
        rw [List.dropWhile_eq_nil_iff]
        intro a ha
        simpa using hall a ha
      simp [hnil]
      intro hmem
      exact absurd rfl (hp2 ')' hmem)
    rw [process_image_links]
    have hdw : (']' :: '(' :: (p ++ [')'])).dropWhile (· ≠ ']') =
        ']' :: '(' :: (p ++ [')']) := by
      rw [List.dropWhile_cons_of_neg]
      simp
    have hmd : mdImgSub (imgRepl fs optOk) ("![](".toList ++ (p ++ [')'])) =
        imgRepl fs optOk p := by
      show mdImgSub (imgRepl fs optOk)
        ('!' :: '[' :: (']' :: '(' :: (p ++ [')']))) = imgRepl fs optOk p
      rw [mdImgSub, hdw]
      split
      · rename_i r3 heq
        simp only [List.cons.injEq, true_and] at heq
        subst heq
        rw [htake, hdrop]
        rw [if_pos ⟨hp1, by simp⟩]
        simp [mdImgSub]
      · simp_all
    rw [hmd, imgRepl]
    simp only [hfa]
    apply htmlImgSub_no_lt
    intro hm
    rcases List.mem_append.mp hm with hm1 | hm1
    · rcases List.mem_append.mp hm1 with hm2 | hm2
      · revert hm2; decide
      · exact hp3 hm2
    · revert hm1; decide

/-- Witness for C7: the empty directory model together with the concrete
reference `missing.png`. -/
theorem c7_missing_asset_witness :
    ("missing.png".toList ≠ [] ∧ (∀ c ∈ "missing.png".toList, c ≠ ')') ∧
      '<' ∉ cleanImgPath "missing.png".toList ∧
      find_asset [] (cleanImgPath "missing.png".toList) = none) ∧
    (find_asset [] "missing.png".toList = none ∧
      process_image_links [] (fun _ => false)
          ("![](".toList ++ ("missing.png".toList ++ [')'])) =
        "[Image not found: ".toList ++ cleanImgPath "missing.png".toList ++
          "]".toList) :=
  ⟨⟨by decide, by decide,
    by
      have hcip : cleanImgPath "missing.png".toList = "missing.png".toList := by
        simp [cleanImgPath, unquote, stripDotDots, scrub, dotdotMatch,
          stripAssetsDir, List.isPrefixOf]
      rw [hcip]
      decide,
    by simp [find_asset]⟩,
   c7_missing_asset [] (fun _ => false) "missing.png".toList
     "missing.png".toList
     (fun d hd => absurd hd (List.not_mem_nil d))
     (by simp) (by decide)
     (by
       have hcip : cleanImgPath "missing.png".toList = "missing.png".toList := by
         simp [cleanImgPath, unquote, stripDotDots, scrub, dotdotMatch,
           stripAssetsDir, List.isPrefixOf]
       rw [hcip]
       decide)
     (by simp [find_asset])⟩

/--
C10: `process_block` returns the empty string for every block whose content
strips to empty, even when the block has children (the whole subtree is
dropped), whereas `block_tree_to_html` skips a block only when its content
is empty AND it has no children, and for an empty-content block with
children still renders the children (wrapped in `<ul>…</ul>` when their
joined rendering is nonempty, and in `<li>` when the block is not the
root).
-/
theorem c10_empty_content_blocks :
    (∀ (fs : List (List Char × List (List Char))) (optOk : List Char → Bool)
        (pp : List (List Char × PageInfo)) (c : List Char) (ch : List Block),
      pstrip c = [] → process_block fs optOk pp (Block.mk c ch) = []) ∧
    (∀ (fs : List (List Char × List (List Char))) (optOk : List Char → Bool)
        (pp : List (List Char × PageInfo)) (h : List Char → Nat)
        (md : List Char → List Char) (c : List Char) (ind : Nat),
      pstrip c = [] →
      block_tree_to_html fs optOk pp h md (Block.mk c []) ind = []) ∧
    (∀ (fs : List (List Char × List (List Char))) (optOk : List Char → Bool)
        (pp : List (List Char × PageInfo)) (h : List Char → Nat)
        (md : List Char → List Char) (c : List Char) (ch : List Block)
        (ind : Nat),
      pstrip c = [] → ch ≠ [] →
      block_tree_to_html fs optOk pp h md (Block.mk c ch) ind =
        (if ind > 0 then
          "<li>".toList ++
            (if block_tree_children fs optOk pp h md ch (ind + 1) ≠ [] then
              "\n<ul>\n".toList ++
                block_tree_children fs optOk pp h md ch (ind + 1) ++
                "\n</ul>".toList
            else []) ++ "</li>".toList
        else
          (if block_tree_children fs optOk pp h md ch (ind + 1) ≠ [] then
            "\n<ul>\n".toList ++
              block_tree_children fs optOk pp h md ch (ind + 1) ++
              "\n</ul>".toList
          else []))) := by
  refine ⟨?_, ?_, ?_⟩
  · intro fs optOk pp c ch hc
    rw [process_block]
    simp [hc]
  · intro fs optOk pp h md c ind hc
    rw [block_tree_to_html]
    simp [hc]
  · intro fs optOk pp h md c ch ind hc hch
    rw [block_tree_to_html]
    simp only [hc]
    rw [if_neg (by simp [List.isEmpty_iff, hch])]
    have hpre : preprocess_markdown h ([] : List Char) = [] := rfl
    rw [hpre]
    have hres : resolve_links_for_html pp ([] : List Char) = [] := by
      rw [resolve_links_for_html]
    rw [hres]
    have himg : process_image_links fs optOk ([] : List Char) = [] := by
      rw [process_image_links]
      rw [show mdImgSub (imgRepl fs optOk) ([] : List Char) = [] from by
        rw [mdImgSub]]
      rw [show htmlImgSub (imgRepl fs optOk) ([] : List Char) = [] from by
        rw [htmlImgSub]]
    rw [himg]
    simp [List.isEmpty_iff, hch]

/-- Witness for C10: an indented empty-content block with one child renders
to nothing in the block-by-block path, while the compiler path still
renders the child list. -/
theorem c10_empty_content_blocks_witness :
    (pstrip "  ".toList = [] ∧
      process_block [] (fun _ => false) []
        (Block.mk "  ".toList [Block.mk "hi".toList []]) = []) ∧
    (pstrip "".toList = [] ∧
      block_tree_to_html [] (fun _ => false) [] (fun _ => 0) id
        (Block.mk "".toList []) 0 = []) ∧
    ([Block.mk "hi".toList []] ≠ ([] : List Block) ∧
      block_tree_to_html [] (fun _ => false) [] (fun _ => 0) id
          (Block.mk "  ".toList [Block.mk "hi".toList []]) 0 =
        (if (0 : Nat) > 0 then
          "<li>".toList ++
            (if block_tree_children [] (fun _ => false) [] (fun _ => 0) id
                [Block.mk "hi".toList []] (0 + 1) ≠ [] then
              "\n<ul>\n".toList ++
                block_tree_children [] (fun _ => false) [] (fun _ => 0) id
                  [Block.mk "hi".toList []] (0 + 1) ++
                "\n</ul>".toList
            else []) ++ "</li>".toList
        else
          (if block_tree_children [] (fun _ => false) [] (fun _ => 0) id
              [Block.mk "hi".toList []] (0 + 1) ≠ [] then
            "\n<ul>\n".toList ++
              block_tree_children [] (fun _ => false) [] (fun _ => 0) id
                [Block.mk "hi".toList []] (0 + 1) ++
              "\n</ul>".toList
          else []))) :=
  ⟨⟨by decide, c10_empty_content_blocks.1 [] (fun _ => false) [] "  ".toList
      [Block.mk "hi".toList []] (by decide)⟩,
   ⟨by decide, c10_empty_content_blocks.2.1 [] (fun _ => false) [] (fun _ => 0)
      id "".toList 0 (by decide)⟩,
   ⟨by simp, c10_empty_content_blocks.2.2 [] (fun _ => false) [] (fun _ => 0)
      id "  ".toList [Block.mk "hi".toList []] 0 (by decide) (by simp)⟩⟩

/-- Witness for C6: `TODO x` is rewritten to a checkbox item in the
compiler path, and in the block path the second line of `TODO a\nTODO b`
is left untouched. -/
theorem c6_task_marker_paths_witness :
    ("- [ ] x".toList ∈ splitLines (fix_task_markers "TODO x".toList) ∧
      startsTaskPrefix "- [ ] x".toList = false) ∧
    (splitLines (emojiTaskMarkers "TODO a\nTODO b".toList)).tail =
      (splitLines "TODO a\nTODO b".toList).tail :=
  ⟨⟨by decide,
    c6_task_marker_paths.1 "TODO x".toList "- [ ] x".toList (by decide)⟩,
   c6_task_marker_paths.2 "TODO a\nTODO b".toList⟩

theorem mem_splitLines_subset {s l : List Char} (h : l ∈ splitLines s)
    {c : Char} (hc : c ∈ l) : c ∈ s := by
  induction s generalizing l with
  | nil =>
    rw [splitLines] at h
    simp at h
    subst h
    cases hc
  | cons a rest ih =>
    rw [splitLines] at h
    by_cases ha : a = '\n'
    · rw [if_pos ha] at h
      rcases List.mem_cons.mp h with rfl | h
      · cases hc
      · exact List.mem_cons_of_mem a (ih h hc)
    · rw [if_neg ha] at h
      cases hsp : splitLines rest with
      | nil => exact absurd hsp (splitLines_ne_nil rest)
      | cons l0 ls =>
        rw [hsp] at h
        rcases List.mem_cons.mp h with rfl | h
        · rcases List.mem_cons.mp hc with rfl | hc
          · exact List.mem_cons_self c rest
          · exact List.mem_cons_of_mem a
              (ih (hsp ▸ List.mem_cons_self l0 ls) hc)
        · exact List.mem_cons_of_mem a (ih (hsp ▸ List.mem_cons_of_mem l0 h) hc)

theorem pstrip_subset {l : List Char} {c : Char} (h : c ∈ pstrip l) : c ∈ l := by
  rw [pstrip] at h
  rw [List.mem_reverse] at h
  have h1 := (List.dropWhile_sublist (l := (l.dropWhile isPyWs).reverse)
    (p := isPyWs)).subset h
  rw [List.mem_reverse] at h1
  exact (List.dropWhile_sublist (l := l) (p := isPyWs)).subset h1

theorem parseProp_none_of_no_colon {l : List Char} (h : ':' ∉ l) :
    parseProp l = none := by
  cases l with
  | nil => rfl
  | cons c rest =>
    rw [parseProp]
    by_cases hca : isAsciiAlpha c
    · rw [if_pos hca]
      split
      · rename_i v heq
        have hmem : ':' ∈ rest.dropWhile isSafeChar :=
          heq ▸ List.mem_cons_self ':' (':' :: v)
        exact absurd
          (List.mem_cons_of_mem c ((List.dropWhile_sublist _).subset hmem)) h
      · rfl
    · rw [if_neg hca]

theorem tagSub_no_hash {s : List Char} (h : '#' ∉ s) : tagSub s = s := by
  induction s with
  | nil => rw [tagSub]
  | cons c rest ih =>
    have hc : ¬ (c = '#') := fun he => h (he ▸ List.mem_cons_self c rest)
    have hr : '#' ∉ rest := fun hm => h (List.mem_cons_of_mem c hm)
    rw [tagSub.eq_def]
    split
    · rename_i heq
      simp only [List.cons.injEq] at heq
      exact absurd heq.1 hc
    · rename_i c' rest' heq
      simp only [List.cons.injEq] at heq
      rw [← heq.1, ← heq.2, ih hr]
    · rename_i heq
      exact absurd heq (List.cons_ne_nil c rest)

theorem blockRefSub_no_paren {s : List Char} (h : '(' ∉ s) : blockRefSub s = s := by
  induction s with
  | nil => rw [blockRefSub]
  | cons c rest ih =>
    have hc : ¬ (c = '(') := fun he => h (he ▸ List.mem_cons_self c rest)
    have hr : '(' ∉ rest := fun hm => h (List.mem_cons_of_mem c hm)
    rw [blockRefSub.eq_def]
    split
    · rename_i heq
      simp only [List.cons.injEq] at heq
      exact absurd heq.1 hc
    · rename_i c' rest' heq
      simp only [List.cons.injEq] at heq
      rw [← heq.1, ← heq.2, ih hr]
    · rename_i heq
      exact absurd heq (List.cons_ne_nil c rest)

theorem idMatch_none_of_no_colon {s : List Char} (h : ':' ∉ s) :
    idMatch s = none := by
  rw [idMatch]
  have : ¬ ("id::".toList.isPrefixOf (s.dropWhile isPyWs) = true) := by
    intro hpre
    obtain ⟨t, ht⟩ := List.isPrefixOf_iff_prefix.mp hpre
    have : ':' ∈ s.dropWhile isPyWs := by
      rw [← ht]
      simp
    exact h ((List.dropWhile_sublist _).subset this)
  simp [this]
  intro hpre
  exact absurd (List.isPrefixOf_iff_prefix.mpr hpre) this

theorem publicMatch_none_of_no_colon {s : List Char} (h : ':' ∉ s) :
    publicMatch s = none := by
  rw [publicMatch]
  have : ¬ ("public::".toList.isPrefixOf (s.dropWhile isPyWs) = true) := by
    intro hpre
    obtain ⟨t, ht⟩ := List.isPrefixOf_iff_prefix.mp hpre
    have : ':' ∈ s.dropWhile isPyWs := by
      rw [← ht]
      simp
    exact h ((List.dropWhile_sublist _).subset this)
  simp [this]
  intro hpre
  exact absurd (List.isPrefixOf_iff_prefix.mpr hpre) this

theorem hexRun_eq_drop {n : Nat} {s r : List Char} (h : hexRun n s = some r) :
    r = s.drop n := by
  induction n generalizing s with
  | zero =>
    rw [hexRun] at h
    cases h
    rfl
  | succ n ih =>
    cases s with
    | nil => rw [hexRun] at h; cases h
    | cons c rest =>
      rw [hexRun] at h
      split at h
      · exact ih h
      · cases h

theorem matchUuidCore_has_dash {s : List Char} (h : matchUuidCore s = true) :
    '-' ∈ s := by
  rw [matchUuidCore] at h
  split at h
  · rename_i s1 heq
    have h1 := hexRun_eq_drop heq
    have : '-' ∈ '-' :: s1 := List.mem_cons_self '-' s1
    rw [h1] at this
    exact List.mem_of_mem_drop this
  · cases h

theorem uuidMatch_none_of_no_dash {s : List Char} (h : '-' ∉ s) :
    uuidMatch s = none := by
  rw [uuidMatch]
  have : ¬ (matchUuidCore (s.dropWhile isPyWs) = true) := by
    intro hm
    exact h ((List.dropWhile_sublist _).subset (matchUuidCore_has_dash hm))
  simp [this]

theorem scrub_no_op {m : List Char → Option Nat} {P : Char → Prop}
    (hm : ∀ t : List Char, (∀ c ∈ t, P c) → m t = none)
    {s : List Char} (hs : ∀ c ∈ s, P c) : scrub m s = s := by
  induction s with
  | nil => rw [scrub]
  | cons c rest ih =>
    rw [scrub]
    rw [hm (c :: rest) hs]
    rw [ih (fun d hd => hs d (List.mem_cons_of_mem c hd))]

theorem clean_no_op {s : List Char} (h1 : ':' ∉ s) (h2 : '-' ∉ s) :
    clean_logseq_metadata s = s := by
  rw [clean_logseq_metadata]
  rw [scrub_no_op (P := fun c => ¬ (c = ':'))
    (fun t ht => idMatch_none_of_no_colon (fun hm => ht ':' hm rfl))
    (fun c hc he => h1 (he ▸ hc))]
  rw [scrub_no_op (P := fun c => ¬ (c = '-'))
    (fun t ht => uuidMatch_none_of_no_dash (fun hm => ht '-' hm rfl))
    (fun c hc he => h2 (he ▸ hc))]
  rw [scrub_no_op (P := fun c => ¬ (c = ':'))
    (fun t ht => publicMatch_none_of_no_colon (fun hm => ht ':' hm rfl))
    (fun c hc he => h1 (he ▸ hc))]

theorem taskRewriteLine_no_op {l : List Char} (h : startsTaskPrefix l = false) :
    taskRewriteLine l = l := by
  rw [startsTaskPrefix] at h
  simp only [decide_eq_false_iff_not] at h
  push_neg at h
  obtain ⟨h1, h2, h3, h4, h5⟩ := h
  rw [taskRewriteLine]
  rw [show taskStep "DONE ".toList "- [x] ".toList l = l from by
    rw [taskStep, if_neg (by simpa using h1)]]
  rw [show taskStep "DOING ".toList "- [ ] ".toList l = l from by
    rw [taskStep, if_neg (by simpa using h2)]]
  rw [show taskStep "TODO ".toList "- [ ] ".toList l = l from by
    rw [taskStep, if_neg (by simpa using h3)]]
  rw [show taskStep "NOW ".toList "- [ ] ".toList l = l from by
    rw [taskStep, if_neg (by simpa using h4)]]
  rw [show taskStep "LATER ".toList "- [ ] ".toList l = l from by
    rw [taskStep, if_neg (by simpa using h5)]]

theorem fix_task_markers_no_op {s : List Char}
    (h : ∀ l ∈ splitLines s, startsTaskPrefix l = false) :
    fix_task_markers s = s := by
  rw [fix_task_markers]
  have : (splitLines s).map taskRewriteLine = (splitLines s).map id :=
    List.map_congr_left (fun l hl => taskRewriteLine_no_op (h l hl))
  rw [this, List.map_id, joinLines_splitLines]

theorem spec_no_props (h : List Char → Nat) {ls : List (List Char)}
    (hp : ∀ l ∈ ls, parseProp (pstrip l) = none) :
    specFormatLines h ls = (ls.map renderLine).flatten := by
  induction ls with
  | nil => rw [specFormatLines]; rfl
  | cons l ls ih =>
    rw [specFormatLines]
    rw [if_neg (by simp [isPropLine, hp l (List.mem_cons_self l ls)])]
    rw [ih (fun x hx => hp x (List.mem_cons_of_mem l hx))]
    rfl

theorem format_properties_no_props (h : List Char → Nat) {s : List Char}
    (hp : ∀ l ∈ splitLines s, parseProp (pstrip l) = none) :
    format_properties h s = joinLines (((splitLines s).map renderLine).flatten) := by
  rw [format_properties]
  rw [fpGo_eq_spec h _ []]
  simp only [List.nil_append]
  rw [← spec_unfold, spec_no_props h hp]

/--
C8 counterexample: the normalization pipeline is not idempotent.  For the
input `((a((b))c))` the first pass removes only the inner block-reference
marker, leaving `<p>((ac))</p>`, and the second pass removes the newly
formed marker `((ac))`, producing `<p></p>`.
-/
theorem c8_counterexample :
    preprocess_markdown (fun _ => 0)
        (preprocess_markdown (fun _ => 0) "((a((b))c))".toList) ≠
      preprocess_markdown (fun _ => 0) "((a((b))c))".toList := by
  have h2 : preprocess_markdown (fun _ => 0) "((a((b))c))".toList =
      "<p>((ac))</p>".toList := by
    simp [preprocess_markdown, tagSub, blockRefSub, fix_task_markers,
      splitLines, joinLines, taskRewriteLine, taskStep, format_properties,
      fpGo, parseProp, pstrip, isPyWs, isAsciiAlpha, isSafeChar, wrapP,
      clean_logseq_metadata, scrub, idMatch, publicMatch, uuidMatch,
      matchUuidCore, hexRun, isHexDash, isHexChar, List.isPrefixOf]
  have h1 : preprocess_markdown (fun _ => 0) "<p>((ac))</p>".toList =
      "<p></p>".toList := by
    simp [preprocess_markdown, tagSub, blockRefSub, fix_task_markers,
      splitLines, joinLines, taskRewriteLine, taskStep, format_properties,
      fpGo, parseProp, pstrip, isPyWs, isAsciiAlpha, isSafeChar, wrapP,
      clean_logseq_metadata, scrub, idMatch, publicMatch, uuidMatch,
      matchUuidCore, hexRun, isHexDash, isHexChar, List.isPrefixOf]
  rw [h2, h1]
  decide

theorem mem_joinLines {ls : List (List Char)} {c : Char}
    (h : c ∈ joinLines ls) : c = '\n' ∨ ∃ l ∈ ls, c ∈ l := by
  induction ls with
  | nil => rw [joinLines] at h; cases h
  | cons l ls ih =>
    cases ls with
    | nil =>
      rw [joinLines] at h
      exact Or.inr ⟨l, by simp, h⟩
    | cons l1 ls' =>
      rw [joinLines] at h
      rcases List.mem_append.mp h with hm | hm
      · exact Or.inr ⟨l, by simp, hm⟩
      · rcases List.mem_cons.mp hm with rfl | hm
        · exact Or.inl rfl
        · rcases ih hm with hnl | ⟨l', hl', hc'⟩
          · exact Or.inl hnl
          · exact Or.inr ⟨l', List.mem_cons_of_mem l hl', hc'⟩

theorem flatten_singletons {α : Type} (ls : List α) :
    (ls.map (fun i => [i])).flatten = ls := by
  induction ls with
  | nil => rfl
  | cons a ls ih => simp [ih]

theorem pstrip_wrapP (l : List Char) : pstrip (wrapP l) = wrapP l := by
  rw [pstrip]
  have e1 : (wrapP l).dropWhile isPyWs = wrapP l := by
    rw [show wrapP l = '<' :: ('p' :: '>' :: (l ++ "</p>".toList)) from by
      simp [wrapP]]
    rw [List.dropWhile_cons_of_neg (by decide)]
  rw [e1]
  have e2 : (wrapP l).reverse.dropWhile isPyWs = (wrapP l).reverse := by
    rw [show (wrapP l).reverse =
        '>' :: ('p' :: '/' :: '<' :: (l.reverse ++ ['>', 'p', '<'])) from by
      simp [wrapP]]
    rw [List.dropWhile_cons_of_neg (by decide)]
  rw [e2, List.reverse_reverse]

theorem startsTask_wrapP (l : List Char) : startsTaskPrefix (wrapP l) = false := by
  rw [show wrapP l = '<' :: ('p' :: '>' :: (l ++ "</p>".toList)) from by
    simp [wrapP]]
  rfl

theorem parseProp_wrapP (l : List Char) : parseProp (wrapP l) = none := by
  rw [show wrapP l = '<' :: ('p' :: '>' :: (l ++ "</p>".toList)) from by
    simp [wrapP]]
  rfl

theorem renderLine_wrapP (l : List Char) : renderLine (wrapP l) = [wrapP l] := by
  rw [renderLine, pstrip_wrapP]
  rw [if_pos (by simp [wrapP])]
  rw [if_pos (by
    rw [show wrapP l = '<' :: ('p' :: '>' :: (l ++ "</p>".toList)) from by
      simp [wrapP]]
    rfl)]

theorem mem_wrapP {l : List Char} {c : Char} (h : c ∈ wrapP l) :
    c ∈ l ∨ c ∈ "<p></p>".toList := by
  rw [wrapP] at h
  rcases List.mem_append.mp h with hm | hm
  · rcases List.mem_append.mp hm with hm' | hm'
    · right
      fin_cases hm' <;> decide
    · exact Or.inl hm'
  · right
    fin_cases hm <;> decide

/--
C8 (amended): the normalization pipeline is not idempotent in general (a
second application rewrites block-reference markers newly formed by the
first removal, and drops the trailing newline of a grouped property
section); it is idempotent on markup-free text: for every input consisting
only of ASCII letters, spaces and newlines, none of whose lines starts with
a task prefix, reapplying `preprocess_markdown` to its own output yields
that output unchanged.
-/
theorem c8_normalizer_restricted_idempotence (h : List Char → Nat)
    (x : List Char)
    (hchars : ∀ c ∈ x, isAsciiAlpha c = true ∨ c = ' ' ∨ c = '\n')
    (htask : ∀ l ∈ splitLines x, startsTaskPrefix l = false) :
    preprocess_markdown h (preprocess_markdown h x) = preprocess_markdown h x := by
  by_cases hx : x = []
  · subst hx; rfl
  have habs : ∀ (ch : Char), isAsciiAlpha ch = false → ch ≠ ' ' → ch ≠ '\n' →
      ch ∉ x := by
    intro ch hA hS hN hm
    rcases hchars ch hm with hh | hh | hh
    · rw [hA] at hh; exact absurd hh (by simp)
    · exact hS hh
    · exact hN hh
  have hhash : '#' ∉ x := habs '#' (by decide) (by decide) (by decide)
  have hpar : '(' ∉ x := habs '(' (by decide) (by decide) (by decide)
  have hcolon : ':' ∉ x := habs ':' (by decide) (by decide) (by decide)
  have hdash : '-' ∉ x := habs '-' (by decide) (by decide) (by decide)
  have hlt : '<' ∉ x := habs '<' (by decide) (by decide) (by decide)
  have hprops : ∀ l ∈ splitLines x, parseProp (pstrip l) = none := by
    intro l hl
    apply parseProp_none_of_no_colon
    intro hm
    exact hcolon (mem_splitLines_subset hl (pstrip_subset hm))
  -- every rendered item is a wrapped paragraph of one line of x
  have hitem : ∀ i ∈ ((splitLines x).map renderLine).flatten,
      ∃ l, l ∈ splitLines x ∧ i = wrapP l := by
    intro i hi
    rw [List.mem_flatten] at hi
    obtain ⟨chunk, hchunk, hic⟩ := hi
    rw [List.mem_map] at hchunk
    obtain ⟨l, hl, rfl⟩ := hchunk
    rw [renderLine] at hic
    by_cases hne : pstrip l ≠ []
    · rw [if_pos hne] at hic
      by_cases hhd : (pstrip l).head? = some '<'
      · exfalso
        cases hsp : pstrip l with
        | nil => exact hne hsp
        | cons d t =>
          rw [hsp] at hhd
          simp at hhd
          subst hhd
          exact hlt (mem_splitLines_subset hl
            (pstrip_subset (hsp ▸ List.mem_cons_self '<' t)))
      · rw [if_neg hhd] at hic
        rcases List.mem_cons.mp hic with rfl | hic
        · exact ⟨l, hl, rfl⟩
        · cases hic
    · rw [if_neg hne] at hic
      cases hic
  -- characters of the first-pass output
  have hWsub : ∀ c ∈ joinLines (((splitLines x).map renderLine).flatten),
      c ∈ x ∨ c ∈ "<p></p>\n".toList := by
    intro c hc
    rcases mem_joinLines hc with rfl | ⟨i, hi, hci⟩
    · right; decide
    · obtain ⟨l, hl, rfl⟩ := hitem i hi
      rcases mem_wrapP hci with hm | hm
      · exact Or.inl (mem_splitLines_subset hl hm)
      · right
        fin_cases hm <;> decide
  have hfx : preprocess_markdown h x =
      joinLines (((splitLines x).map renderLine).flatten) := by
    rw [preprocess_markdown, if_neg hx]
    rw [tagSub_no_hash hhash, blockRefSub_no_paren hpar,
      fix_task_markers_no_op htask, format_properties_no_props h hprops]
    apply clean_no_op
    · intro hm
      rcases hWsub ':' hm with hy | hy
      · exact hcolon hy
      · revert hy; decide
    · intro hm
      rcases hWsub '-' hm with hy | hy
      · exact hdash hy
      · revert hy; decide
  rw [hfx]
  set W := joinLines (((splitLines x).map renderLine).flatten) with hWdef
  by_cases hW : W = []
  · rw [hW]; rfl
  -- the second pass is a no-op on W
  have hitems_ne : ((splitLines x).map renderLine).flatten ≠ [] := by
    intro he
    rw [hWdef, he] at hW
    exact hW rfl
  have hitems_nn : ∀ i ∈ ((splitLines x).map renderLine).flatten, '\n' ∉ i := by
    intro i hi hm
    obtain ⟨l, hl, rfl⟩ := hitem i hi
    rcases mem_wrapP hm with hy | hy
    · exact mem_splitLines_no_newline hl hy
    · revert hy; decide
  have hsplitW : splitLines W = ((splitLines x).map renderLine).flatten := by
    rw [hWdef]
    exact splitLines_joinLines hitems_ne hitems_nn
  have hWhash : '#' ∉ W := by
    intro hm
    rcases hWsub '#' hm with hy | hy
    · exact hhash hy
    · revert hy; decide
  have hWpar : '(' ∉ W := by
    intro hm
    rcases hWsub '(' hm with hy | hy
    · exact hpar hy
    · revert hy; decide
  have hWcolon : ':' ∉ W := by
    intro hm
    rcases hWsub ':' hm with hy | hy
    · exact hcolon hy
    · revert hy; decide
  have hWdash : '-' ∉ W := by
    intro hm
    rcases hWsub '-' hm with hy | hy
    · exact hdash hy
    · revert hy; decide
  have hWtask : ∀ l ∈ splitLines W, startsTaskPrefix l = false := by
    intro l hl
    rw [hsplitW] at hl
    obtain ⟨l0, _, rfl⟩ := hitem l hl
    exact startsTask_wrapP l0
  have hWprops : ∀ l ∈ splitLines W, parseProp (pstrip l) = none := by
    intro l hl
    rw [hsplitW] at hl
    obtain ⟨l0, _, rfl⟩ := hitem l hl
    rw [pstrip_wrapP]
    exact parseProp_wrapP l0
  rw [preprocess_markdown, if_neg hW]
  rw [tagSub_no_hash hWhash, blockRefSub_no_paren hWpar,
    fix_task_markers_no_op hWtask, format_properties_no_props h hWprops]
  have hrl : (splitLines W).map renderLine = (splitLines W).map (fun i => [i]) := by
    apply List.map_congr_left
    intro i hi
    rw [hsplitW] at hi
    obtain ⟨l0, _, rfl⟩ := hitem i hi
    exact renderLine_wrapP l0
  rw [hrl, flatten_singletons, joinLines_splitLines]
  apply clean_no_op
  · exact hWcolon
  · exact hWdash

/-- Witness for C8 at the concrete markup-free input `hello world`. -/
theorem c8_normalizer_restricted_idempotence_witness :
    ((∀ c ∈ "hello world".toList, isAsciiAlpha c = true ∨ c = ' ' ∨ c = '\n') ∧
      (∀ l ∈ splitLines "hello world".toList, startsTaskPrefix l = false)) ∧
    preprocess_markdown (fun _ => 0)
        (preprocess_markdown (fun _ => 0) "hello world".toList) =
      preprocess_markdown (fun _ => 0) "hello world".toList :=
  ⟨⟨by decide, by decide⟩,
   c8_normalizer_restricted_idempotence (fun _ => 0) "hello world".toList
     (by decide) (by decide)⟩

theorem c9_loop : ∀ (n : Nat) (processed : List (List Char)),
    resolveEmbedsFuel [] (fun _ => false) [] n
      [HBlock.mk [] [] [0]] processed 0 = none := by
  intro n
  induction n with
  | zero => intro processed; rw [resolveEmbedsFuel]
  | succ n ih =>
    intro processed
    have hc3 : process_image_links [] (fun _ => false)
        (resolve_links_for_html [] (resolve_embeds [] processed [])) = [] := by
      simp [resolve_embeds, blockRefSub, resolve_links_for_html,
        process_image_links, mdImgSub, htmlImgSub]
    rw [resolveEmbedsFuel]
    simp only [List.getElem?_cons_zero]
    rw [if_neg (by simp)]
    simp only [ne_eq, not_true_eq_false, if_false, hc3]
    rw [resolveChildrenFuel]
    simp only [List.set_cons_zero, ih processed]

/--
C9 counterexample: the deduplication guard keys on the block identifier and
is skipped for blocks with a falsy identifier, so embed resolution does not
terminate on every block structure.  On a heap whose single block has an
empty uuid and lists itself as its own child, resolve_embeds_in_block runs
out of fuel whatever the fuel: no amount of computation makes it return.
-/
theorem c9_counterexample :
    ¬ ∃ fuel, (resolve_embeds_in_block [] (fun _ => false) [] fuel
      [HBlock.mk [] [] [0]] 0).isSome = true := by
  rintro ⟨fuel, hf⟩
  rw [resolve_embeds_in_block, c9_loop fuel []] at hf
  simp at hf

theorem filter_length_mono {α : Type} (l : List α) (P Q : α → Bool)
    (hmono : ∀ y, Q y = true → P y = true) :
    (l.filter Q).length ≤ (l.filter P).length := by
  induction l with
  | nil => exact Nat.le_refl 0
  | cons a l ih =>
    by_cases hq : Q a = true
    · rw [List.filter_cons_of_pos hq, List.filter_cons_of_pos (hmono a hq)]
      simpa using ih
    · rw [List.filter_cons_of_neg (by simpa using hq)]
      by_cases hp : P a = true
      · rw [List.filter_cons_of_pos hp]
        exact Nat.le_succ_of_le ih
      · rw [List.filter_cons_of_neg (by simpa using hp)]
        exact ih

theorem filter_length_lt {α : Type} (l : List α) (P Q : α → Bool)
    (hmono : ∀ y, Q y = true → P y = true) (x : α) (hx : x ∈ l)
    (hPx : P x = true) (hQx : Q x = false) :
    (l.filter Q).length < (l.filter P).length := by
  induction l with
  | nil => cases hx
  | cons a l ih =>
    rcases List.mem_cons.mp hx with rfl | hx
    · rw [List.filter_cons_of_neg (by simp [hQx]), List.filter_cons_of_pos hPx]
      exact Nat.lt_succ_of_le (filter_length_mono l P Q hmono)
    · by_cases hq : Q a = true
      · rw [List.filter_cons_of_pos hq, List.filter_cons_of_pos (hmono a hq)]
        simpa using ih hx
      · rw [List.filter_cons_of_neg (by simpa using hq)]
        by_cases hp : P a = true
        · rw [List.filter_cons_of_pos hp]
          exact Nat.lt_succ_of_lt (ih hx)
        · rw [List.filter_cons_of_neg (by simpa using hp)]
          exact ih hx

theorem set_getElem_self {α : Type} : ∀ (l : List α) (n : Nat) (a : α),
    l[n]? = some a → l.set n a = l
  | [], n, a, h => by simp at h
  | b :: l, 0, a, h => by
    simp only [List.getElem?_cons_zero, Option.some.injEq] at h
    rw [List.set_cons_zero, h]
  | b :: l, n + 1, a, h => by
    simp only [List.getElem?_cons_succ] at h
    rw [List.set_cons_succ, set_getElem_self l n a h]

theorem uuidsLeft_congr {h1 h2 : List HBlock}
    (heq : h1.map HBlock.uuid = h2.map HBlock.uuid) (p : List (List Char)) :
    uuidsLeft h1 p = uuidsLeft h2 p := by
  rw [uuidsLeft, uuidsLeft, heq]

theorem uuidsLeft_mono {heap : List HBlock} {p q : List (List Char)}
    (hpq : p ⊆ q) : uuidsLeft heap q ≤ uuidsLeft heap p := by
  apply filter_length_mono
  intro u hu
  simp only [decide_eq_true_eq] at hu ⊢
  intro hmem
  exact hu (hpq hmem)

theorem uuidsLeft_lt {heap : List HBlock} {p : List (List Char)} {u : List Char}
    (hu : u ∈ heap.map HBlock.uuid) (hnp : u ∉ p) :
    uuidsLeft heap (u :: p) < uuidsLeft heap p := by
  apply filter_length_lt _ _ _ ?_ u (List.mem_dedup.mpr hu)
  · simpa using hnp
  · simp
  · intro y hy
    simp only [decide_eq_true_eq] at hy ⊢
    intro hmem
    exact hy (List.mem_cons_of_mem u hmem)

theorem map_uuid_set {heap : List HBlock} {addr : Nat} {b : HBlock}
    (hb : heap[addr]? = some b) (c : List Char) :
    (heap.set addr { b with content := c }).map HBlock.uuid =
      heap.map HBlock.uuid := by
  rw [List.map_set]
  apply set_getElem_self
  rw [List.getElem?_map, hb]
  rfl

theorem embeds_term_aux (fs : List (List Char × List (List Char)))
    (optOk : List Char → Bool) (pp : List (List Char × PageInfo)) :
    ∀ n : Nat,
      (∀ heap processed addr, (∀ b ∈ heap, b.uuid ≠ []) →
        uuidsLeft heap processed < n →
        ∃ h1 p1,
          resolveEmbedsFuel fs optOk pp n heap processed addr = some (h1, p1) ∧
          h1.map HBlock.uuid = heap.map HBlock.uuid ∧ processed ⊆ p1) ∧
      (∀ heap processed as, (∀ b ∈ heap, b.uuid ≠ []) →
        uuidsLeft heap processed < n →
        ∃ h1 p1,
          resolveChildrenFuel fs optOk pp n heap processed as = some (h1, p1) ∧
          h1.map HBlock.uuid = heap.map HBlock.uuid ∧ processed ⊆ p1) := by
  intro n
  induction n with
  | zero =>
    constructor
    · intro heap processed addr _ hm
      exact absurd hm (Nat.not_lt_zero _)
    · intro heap processed as _ hm
      exact absurd hm (Nat.not_lt_zero _)
  | succ n ih =>
    have hA : ∀ heap processed addr, (∀ b ∈ heap, b.uuid ≠ []) →
        uuidsLeft heap processed < n + 1 →
        ∃ h1 p1,
          resolveEmbedsFuel fs optOk pp (n + 1) heap processed addr =
            some (h1, p1) ∧
          h1.map HBlock.uuid = heap.map HBlock.uuid ∧ processed ⊆ p1 := by
      intro heap processed addr hne hm
      cases hb : heap[addr]? with
      | none =>
        refine ⟨heap, processed, ?_, rfl, fun y hy => hy⟩
        rw [resolveEmbedsFuel, hb]
      | some b =>
        have hbmem : b ∈ heap := by
          have := List.getElem?_eq_some.mp hb
          obtain ⟨hlt, hget⟩ := this
          exact hget ▸ List.getElem_mem hlt
        have hbne : b.uuid ≠ [] := hne b hbmem
        by_cases hv : b.uuid ∈ processed
        · refine ⟨heap, processed, ?_, rfl, fun y hy => hy⟩
          rw [resolveEmbedsFuel]
          simp only [hb]
          rw [if_pos ⟨hbne, hv⟩]
        · have hstep : resolveEmbedsFuel fs optOk pp (n + 1) heap processed addr =
              resolveChildrenFuel fs optOk pp n
                (heap.set addr { b with content := process_image_links fs optOk (resolve_links_for_html pp (resolve_embeds b.content (b.uuid :: processed) pp)) })
                (b.uuid :: processed) b.children := by
            rw [resolveEmbedsFuel]
            simp only [hb]
            rw [if_neg (fun hc => hv hc.2), if_pos hbne]
          set heap2 := heap.set addr { b with content := process_image_links fs optOk (resolve_links_for_html pp (resolve_embeds b.content (b.uuid :: processed) pp)) } with hh2
          have hmap2 : heap2.map HBlock.uuid = heap.map HBlock.uuid :=
            map_uuid_set hb _
          have hne2 : ∀ b' ∈ heap2, b'.uuid ≠ [] := by
            intro b' hb'
            rcases List.mem_or_eq_of_mem_set hb' with hmem | rfl
            · exact hne b' hmem
            · exact hbne
          have huu : b.uuid ∈ heap.map HBlock.uuid :=
            List.mem_map.mpr ⟨b, hbmem, rfl⟩
          have hm2 : uuidsLeft heap2 (b.uuid :: processed) < n := by
            rw [uuidsLeft_congr hmap2]
            have := uuidsLeft_lt huu hv
            omega
          obtain ⟨h1, p1, heq, hmap1, hsub1⟩ :=
            ih.2 heap2 (b.uuid :: processed) b.children hne2 hm2
          refine ⟨h1, p1, ?_, ?_, ?_⟩
          · rw [hstep, heq]
          · rw [hmap1, hmap2]
          · exact fun y hy => hsub1 (List.mem_cons_of_mem _ hy)
    refine ⟨hA, ?_⟩
    intro heap processed as
    induction as generalizing heap processed with
    | nil =>
      intro _ _
      exact ⟨heap, processed, by rw [resolveChildrenFuel], rfl, fun y hy => hy⟩
    | cons a as' ihas =>
      intro hne hm
      obtain ⟨h1, p1, heq, hmap1, hsub1⟩ := hA heap processed a hne hm
      have hne1 : ∀ b ∈ h1, b.uuid ≠ [] := by
        intro b hbm
        have : b.uuid ∈ heap.map HBlock.uuid := by
          rw [← hmap1]
          exact List.mem_map.mpr ⟨b, hbm, rfl⟩
        obtain ⟨b0, hb0, hbu⟩ := List.mem_map.mp this
        rw [← hbu]
        exact hne b0 hb0
      have hm1 : uuidsLeft h1 p1 < n + 1 := by
        calc uuidsLeft h1 p1 = uuidsLeft heap p1 := uuidsLeft_congr hmap1 p1
          _ ≤ uuidsLeft heap processed := uuidsLeft_mono hsub1
          _ < n + 1 := hm
      obtain ⟨h2, p2, heq2, hmap2, hsub2⟩ := ihas h1 p1 hne1 hm1
      refine ⟨h2, p2, ?_, ?_, ?_⟩
      · rw [resolveChildrenFuel]
        simp only [heq, heq2]
      · rw [hmap2, hmap1]
      · exact fun y hy => hsub2 (hsub1 hy)

/--
C9 (amended): embed resolution terminates on every block structure, cyclic
ones included, whose blocks all carry a truthy identifier: the visited set
keyed by identifier only grows, each unvisited identifier is processed at
most once, and some finite fuel suffices for resolve_embeds_in_block to
return.  (A cycle through a block whose identifier is missing or empty
escapes the guard and does not terminate.)  The body of resolve_embeds is
modelled from the spec, since that helper is absent from the repository.
-/
theorem c9_embed_resolution_bounded (fs : List (List Char × List (List Char)))
    (optOk : List Char → Bool) (pp : List (List Char × PageInfo))
    (heap : List HBlock) (addr : Nat)
    (hne : ∀ b ∈ heap, b.uuid ≠ []) :
    ∃ fuel, (resolve_embeds_in_block fs optOk pp fuel heap addr).isSome = true := by
  obtain ⟨h1, p1, heq, -, -⟩ :=
    (embeds_term_aux fs optOk pp (uuidsLeft heap [] + 1)).1 heap [] addr hne
      (Nat.lt_succ_self _)
  exact ⟨uuidsLeft heap [] + 1, by rw [resolve_embeds_in_block, heq]; rfl⟩

/-- Witness for C9 at a concrete one-block heap with a truthy uuid. -/
theorem c9_embed_resolution_bounded_witness :
    (∀ b ∈ [HBlock.mk ['u'] [] [0]], b.uuid ≠ []) ∧
    ∃ fuel, (resolve_embeds_in_block [] (fun _ => false) [] fuel
      [HBlock.mk ['u'] [] [0]] 0).isSome = true :=
  ⟨by intro b hb; rcases List.mem_singleton.mp hb with rfl; simp,
   c9_embed_resolution_bounded [] (fun _ => false) [] [HBlock.mk ['u'] [] [0]] 0
     (by intro b hb; rcases List.mem_singleton.mp hb with rfl; simp)⟩

end Logseq
